import Mathlib

/-!
# Tree separation drivers: a verification development

Shallow embedding of the driver programs of the tree-separation repository
(`segmentation_code/Source.cpp`, `TreeSeparation/Source.cpp`, `test.cpp`,
`point_wrap/example_alphawrap.cpp`).

Conventions.
* A text file or a string is a `List Char`.
* A C `int` is an `Int` kept inside `[INT_MIN, INT_MAX]`.
* A C `double` is kept abstract: the scanners return the matched text and a
  conversion function (`strtod`) is a parameter.
* The engine `FoxTree` is not among the sources; it is modelled from the
  specification, over exact rationals.
* The C/C++ library routines used by the sources (`operator>>` on `int`,
  `operator<<` on `int`, `fscanf`, `feof`, `std::sort`) are modelled for the
  "C" locale.
-/

namespace TreeSeparation

/-! ## Library model: characters, decimal text -/

/-- C `isspace` in the "C" locale. -/
def isSpace (c : Char) : Bool :=
  c == ' ' || c == '\t' || c == '\n' || c == '\x0b' || c == '\x0c' || c == '\r'

/-- C `isdigit`. -/
def isDigit (c : Char) : Bool := '0' ≤ c && c ≤ '9'

/-- Value of a decimal digit character. -/
def digitVal (c : Char) : Nat := c.toNat - 48

/-- Value of a run of decimal digits, most significant first. -/
def digitsVal (ds : List Char) : Nat := ds.foldl (fun acc c => acc * 10 + digitVal c) 0

/-- Largest value of a 32-bit `int`. -/
def INT_MAX : Int := 2147483647

/-- Smallest value of a 32-bit `int`. -/
def INT_MIN : Int := -2147483648

/-- Text that `std::ostream << int` produces for a non-negative magnitude. -/
def natText (n : Nat) : List Char := Nat.toDigits 10 n

/-- Text that `std::ostream << int` produces (decimal, no padding). -/
def intText (n : Int) : List Char :=
  if n < 0 then '-' :: natText n.natAbs else natText n.natAbs

/-! ## Library model: `std::istream >> int` -/

/-- Outcome of one formatted extraction of an `int`. -/
inductive Extract where
  /-- the sentry failed (nothing but white space left): the target is untouched -/
  | sentry : Extract
  /-- the conversion set `failbit`; the value written is 0 or the clamped bound -/
  | fail (v : Int) (rest : List Char) : Extract
  /-- a value was extracted, `rest` is what remains in the buffer -/
  | ok (v : Int) (rest : List Char) : Extract
  deriving DecidableEq, Repr

/-- Split an optional sign off the front: `(negative, rest)`. -/
def takeSign : List Char → Bool × List Char
  | '-' :: cs => (true, cs)
  | '+' :: cs => (false, cs)
  | cs => (false, cs)

/-- Stages 2 and 3 of `num_get` for `int`: accumulate the decimal digits of `body`,
convert, and clamp to the range of `int` (setting `failbit` when clamped or when
there is no digit). -/
def convertInt (neg : Bool) (body : List Char) : Extract :=
  let ds := body.takeWhile isDigit
  let rest := body.dropWhile isDigit
  if ds = [] then Extract.fail 0 rest
  else
    let v : Int := if neg then -(digitsVal ds : Int) else (digitsVal ds : Int)
    if v < INT_MIN then Extract.fail INT_MIN rest
    else if INT_MAX < v then Extract.fail INT_MAX rest
    else Extract.ok v rest

/-- The extraction `is >> value` for `int value`: the sentry skips white space and
fails at the end of the buffer; otherwise an optional sign is read and the digits
are converted. -/
def extractInt (s : List Char) : Extract :=
  match s.dropWhile isSpace with
  | [] => Extract.sentry
  | c :: cs => convertInt (takeSign (c :: cs)).1 (takeSign (c :: cs)).2

/-! ## `segmentation_code/Source.cpp`: `to_int` -/

/-- Source `to_int`: `stringstream ss(str); int value; ss >> value; return value;`.
`value` is not initialised, `uninit` is what it holds before the extraction. -/
def to_int (uninit : Int) (str : List Char) : Int :=
  match extractInt str with
  | Extract.sentry => uninit
  | Extract.fail v _ => v
  | Extract.ok v _ => v

/-! ## `test.cpp` -/

/-- Source `writeToFile`: the text written, `outFile << num << " "` per number. -/
def writeToFile (numbers : List Int) : List Char :=
  match numbers with
  | [] => []
  | num :: rest => intText num ++ ' ' :: writeToFile rest

/-- The loop `while (inFile >> num) { cout << num << " "; }` of `readFromFile`, run
for at most `fuel` iterations: `some` of the numbers printed once an extraction
fails, `none` when the loop is still running after `fuel` iterations. -/
def readLoop : Nat → List Char → Option (List Int)
  | 0, _ => none
  | fuel + 1, s =>
    match extractInt s with
    | Extract.ok v rest => (readLoop fuel rest).map (v :: ·)
    | _ => some []

/-- Source `readFromFile` on the text of the file: the numbers it prints. -/
def readFromFile (text : List Char) (fuel : Nat) : Option (List Int) := readLoop fuel text

/-- The call `std::sort(numbers.begin(), numbers.end())` on ints. -/
def sortInts (numbers : List Int) : List Int := numbers.insertionSort (· ≤ ·)

/-- Source `main` of `test.cpp`: the vector is sorted, written, and read back; the
result is what `readFromFile` prints. -/
def testMain (fuel : Nat) : Option (List Int) :=
  readFromFile (writeToFile (sortInts [42, 16, 73, 8, 23])) fuel

/-! ## Library model: `FILE*`, `feof`, `fscanf` with `%lf` -/

/-- An input stream opened by `fopen(.., "r")`: the unread characters and the
end-of-file indicator that `feof` tests.  The indicator is set only by a read that
runs into the end of the data. -/
structure CFile where
  buf : List Char
  eof : Bool
  deriving DecidableEq, Repr

/-- The call `fopen` on a file with the given content: nothing read, indicator
clear. -/
def fopen (content : List Char) : CFile := ⟨content, false⟩

/-- The test `feof(inFile)`. -/
def feof (f : CFile) : Bool := f.eof

/-- White-space skipping, as done by a white-space directive and at the start of
`%lf`: read up to the first character that is not white space (it is pushed back);
running out of characters sets the end-of-file indicator. -/
def skipSpace (f : CFile) : CFile :=
  match f.buf.dropWhile isSpace with
  | [] => ⟨[], true⟩
  | c :: cs => ⟨c :: cs, f.eof⟩

/-- Optional sign in front of a number: `(sign text, rest)`. -/
def splitSign : List Char → List Char × List Char
  | '-' :: cs => (['-'], cs)
  | '+' :: cs => (['+'], cs)
  | cs => ([], cs)

/-- Optional fraction `.ddd` after the integer digits: `(text, rest)`. -/
def splitFraction : List Char → List Char × List Char
  | '.' :: cs => ('.' :: cs.takeWhile isDigit, cs.dropWhile isDigit)
  | cs => ([], cs)

/-- Optional exponent after a mantissa: `(text, rest, complete)`; the text is what
has been read, `complete` tells whether it has at least one digit. -/
def splitExponent : List Char → List Char × List Char × Bool
  | [] => ([], [], true)
  | e :: cs =>
    if e == 'e' || e == 'E' then
      let sg := splitSign cs
      let ds := sg.2.takeWhile isDigit
      (e :: sg.1 ++ ds, sg.2.dropWhile isDigit, !ds.isEmpty)
    else ([], e :: cs, true)

/-- The input item of a `%lf` conversion on a buffer that starts with a character
that is not white space (ISO C 7.21.6.2): the longest prefix of the buffer that is
a prefix of a decimal floating constant `[sign] digits [. digits] [e [sign] digits]`,
the rest of the buffer, and whether the item is a complete constant.  Hexadecimal
constants, `inf` and `nan` are outside this model. -/
def matchFloat (s : List Char) : List Char × List Char × Bool :=
  let sg := splitSign s
  let ip := sg.2.takeWhile isDigit
  let fr := splitFraction (sg.2.dropWhile isDigit)
  if ip.isEmpty && fr.1.length ≤ 1 then
    (sg.1 ++ ip ++ fr.1, fr.2, false)
  else
    let ex := splitExponent fr.2
    (sg.1 ++ ip ++ fr.1 ++ ex.1, ex.2.1, ex.2.2)

/-- One `%lf` conversion: the matched text when the conversion succeeds, and the
stream afterwards.  An input failure (end of data while skipping white space) and a
matching failure both give `none`; what was read stays consumed. -/
def scanLf (f : CFile) : Option (List Char) × CFile :=
  let f1 := skipSpace f
  match f1.buf with
  | [] => (none, f1)
  | c :: cs =>
    let m := matchFloat (c :: cs)
    (if m.2.2 then some m.1 else none, ⟨m.2.1, m.2.1.isEmpty⟩)

section Loading

variable {D : Type}

/-- Source `Point3D` (declared in `FoxTree.h`): the three coordinates the drivers
fill in. -/
structure Point3D (D : Type) where
  x : D
  y : D
  z : D
  deriving DecidableEq, Repr

/-- The call `fscanf(inFile, "%lf %lf %lf\n", &tempPt.x, &tempPt.y, &tempPt.z)`:
each `%lf` stores its value when it succeeds, the first failure ends the call, and
the trailing white-space directive runs only after three successes.  `strtod`
converts matched text to a `double`. -/
def fscanfPoint (strtod : List Char → D) (f : CFile) (tempPt : Point3D D) :
    CFile × Point3D D :=
  match scanLf f with
  | (none, f1) => (f1, tempPt)
  | (some tx, f1) =>
    let pt1 := { tempPt with x := strtod tx }
    match scanLf (skipSpace f1) with
    | (none, f2) => (f2, pt1)
    | (some ty, f2) =>
      let pt2 := { pt1 with y := strtod ty }
      match scanLf (skipSpace f2) with
      | (none, f3) => (f3, pt2)
      | (some tz, f3) => (skipSpace f3, { pt2 with z := strtod tz })

/-- The loading loop of the drivers,
`while (!feof(inFile)) { fscanf(...); points.push_back(tempPt); }`,
run for at most `fuel` iterations: `some points` once `feof` holds, `none` when the
loop is still running after `fuel` iterations. -/
def loadLoop (strtod : List Char → D) :
    Nat → CFile → Point3D D → List (Point3D D) → Option (List (Point3D D))
  | 0, _, _, _ => none
  | fuel + 1, f, tempPt, points =>
    if feof f then some points
    else
      let r := fscanfPoint strtod f tempPt
      loadLoop strtod fuel r.1 r.2 (points ++ [r.2])

/-- Loading a whole file: `fopen`, the loop started with the uninitialised
`tempPt` and the empty vector. -/
def loadPoints (strtod : List Char → D) (uninit : Point3D D) (content : List Char)
    (fuel : Nat) : Option (List (Point3D D)) :=
  loadLoop strtod fuel (fopen content) uninit []

end Loading

/-! ## Well-formed coordinate files (the input class of the ingestion claim) -/

/-- A buffer that does not continue a run of digits. -/
def stopsDigits : List Char → Prop
  | [] => True
  | c :: _ => isDigit c = false

/-- A buffer that is empty or starts with white space: where a number may end. -/
def endsNumber : List Char → Prop
  | [] => True
  | c :: _ => isSpace c = true

/-- A decimal number as written in a coordinate file, split in its four parts:
sign, integer digits, fraction (empty or `.` and digits), exponent (empty or
`e`/`E`, sign, digits). -/
structure Decimal where
  sign : List Char
  intPart : List Char
  fraction : List Char
  exponent : List Char
  deriving DecidableEq, Repr

/-- The text of the number. -/
def Decimal.text (d : Decimal) : List Char :=
  d.sign ++ d.intPart ++ d.fraction ++ d.exponent

/-- Empty, `+` or `-`. -/
def isSignText (s : List Char) : Bool := s == [] || s == ['+'] || s == ['-']

/-- Empty, or a point followed by digits. -/
def isFractionText : List Char → Bool
  | [] => true
  | c :: ds => c == '.' && ds.all isDigit

/-- Empty, or `e`/`E`, an optional sign and at least one digit. -/
def isExponentText : List Char → Bool
  | [] => true
  | e :: r =>
    (e == 'e' || e == 'E') &&
      ((!r.isEmpty && r.all isDigit) ||
       match r with
       | [] => false
       | s :: ds => (s == '+' || s == '-') && !ds.isEmpty && ds.all isDigit)

/-- A well-formed decimal number: the parts have the right shape and the mantissa
has at least one digit. -/
def Decimal.wellFormed (d : Decimal) : Bool :=
  isSignText d.sign && d.intPart.all isDigit && isFractionText d.fraction &&
    isExponentText d.exponent && (!d.intPart.isEmpty || 1 < d.fraction.length)

/-- One coordinate triple of a file with the white space that follows each number. -/
structure Triple where
  x : Decimal
  sx : List Char
  y : Decimal
  sy : List Char
  z : Decimal
  sz : List Char
  deriving DecidableEq, Repr

/-- The text of a triple. -/
def Triple.text (t : Triple) : List Char :=
  t.x.text ++ t.sx ++ t.y.text ++ t.sy ++ t.z.text ++ t.sz

/-- The three numbers are well formed, the first two are followed by white space,
and what follows the third is white space (possibly none). -/
def Triple.wellFormed (t : Triple) : Bool :=
  t.x.wellFormed && t.y.wellFormed && t.z.wellFormed &&
    !t.sx.isEmpty && t.sx.all isSpace && !t.sy.isEmpty && t.sy.all isSpace &&
    t.sz.all isSpace

/-- Every triple but the last is separated from the next one by white space. -/
def separated : List Triple → Bool
  | [] => true
  | [_] => true
  | t :: t' :: ts => !t.sz.isEmpty && separated (t' :: ts)

/-- The content of a coordinate file: optional leading white space, then the
triples (the last may or may not be followed by a newline). -/
def fileText (lead : List Char) (ts : List Triple) : List Char :=
  lead ++ ts.flatMap Triple.text

/-- The point a triple denotes. -/
def Triple.point {D : Type} (strtod : List Char → D) (t : Triple) : Point3D D :=
  ⟨strtod t.x.text, strtod t.y.text, strtod t.z.text⟩

/-! ## The separation engine `FoxTree`

`FoxTree.h` and its implementation are not among the sources; the engine is
modelled from the specification (sections 3, 4, 6 and 7).  Coordinates are exact
rationals, and "within radius R" is tested on squared distances. -/

/-- Modelled from the spec: the error kinds of section 7 that end a run
(`FoxTree` itself is missing from the sources). -/
inductive EngineError where
  | EmptyInputError : EngineError
  | InvalidParameterError : EngineError
  deriving DecidableEq, Repr

/-- Modelled from the spec: the slicing direction of section 6, the first argument
of the missing `FoxTree::separateTrees`. -/
inductive Direction where
  | topDown : Direction
  | bottomUp : Direction
  deriving DecidableEq, Repr

/-- Modelled from the spec: the engine object built by the missing `FoxTree`
constructor, the point list and the three construction parameters of section 6. -/
structure FoxTree where
  points : List (Point3D ℚ)
  radius : ℚ
  verticalResolution : ℚ
  minPointsPerCluster : Int
  deriving DecidableEq, Repr

/-- Modelled from the spec: section 3, a point is identified by its index in the
input sequence; this reads the coordinates behind an index (missing `FoxTree`). -/
def pointAt (pts : List (Point3D ℚ)) (i : Nat) : Point3D ℚ := pts.getD i ⟨0, 0, 0⟩

/-- Modelled from the spec: section 4.2, the minimum elevation of the point set
(part of the missing Layer Slicer). -/
def zMin : List (Point3D ℚ) → ℚ
  | [] => 0
  | p :: ps => ps.foldl (fun m q => min m q.z) p.z

/-- Modelled from the spec: section 4.2, the maximum elevation of the point set
(part of the missing Layer Slicer). -/
def zMax : List (Point3D ℚ) → ℚ
  | [] => 0
  | p :: ps => ps.foldl (fun m q => max m q.z) p.z

/-- Modelled from the spec: section 4.2, the number of bands
`ceil((zMax - zMin) / V)` of the missing Layer Slicer. -/
def bandCount (lo hi V : ℚ) : Nat := ⌈(hi - lo) / V⌉.toNat

/-- Modelled from the spec: section 4.2, the distance of an elevation from the
end of the range where slicing starts (missing Layer Slicer): from the maximum
when slicing top-down, from the minimum when slicing bottom-up. -/
def sliceOffset (dir : Direction) (lo hi z : ℚ) : ℚ :=
  match dir with
  | Direction.topDown => hi - z
  | Direction.bottomUp => z - lo

/-- Modelled from the spec: section 4.2, the band of an elevation in slicing order
(missing Layer Slicer); bands have width `V` and an elevation on a band boundary
goes to the lower-indexed band. -/
def bandOf (dir : Direction) (lo hi V z : ℚ) : Nat :=
  (⌈sliceOffset dir lo hi z / V⌉ - 1).toNat

/-- Modelled from the spec: section 3, a band owns the point indices whose
elevation falls in its range (missing `FoxTree` data model). -/
structure Band where
  index : Nat
  members : List Nat
  deriving DecidableEq, Repr

/-- Modelled from the spec: section 4.2, the missing Layer Slicer; the ordered
sequence of `ceil((zMax - zMin) / V)` bands, each point index in the band of its
elevation.  When all elevations are equal that count is 0 and no point is in a
band. -/
def sliceBands (pts : List (Point3D ℚ)) (V : ℚ) (dir : Direction) : List Band :=
  (List.range (bandCount (zMin pts) (zMax pts) V)).map fun k =>
    { index := k
      members := (List.range pts.length).filter fun i =>
        bandOf dir (zMin pts) (zMax pts) V (pointAt pts i).z == k }

/-- Modelled from the spec: section 4.3, the proximity graph of the missing Layer
Clusterer; an edge joins two points whose planar distance is at most `R`. -/
def planarNear (pts : List (Point3D ℚ)) (R : ℚ) (i j : Nat) : Bool :=
  ((pointAt pts i).x - (pointAt pts j).x) ^ 2 + ((pointAt pts i).y - (pointAt pts j).y) ^ 2
    ≤ R ^ 2

/-- Modelled from the spec: section 4.3, one union step of the connected-component
extraction of the missing Layer Clusterer; the new point is united with every
component that has a point adjacent to it. -/
def absorb (adj : Nat → Nat → Bool) (i : Nat) (comps : List (List Nat)) : List (List Nat) :=
  (i :: (comps.filter fun c => c.any (adj i)).flatten) ::
    comps.filter fun c => !c.any (adj i)

/-- Modelled from the spec: section 4.3, the connected components of a band's
points under the proximity graph (missing Layer Clusterer). -/
def components (adj : Nat → Nat → Bool) (members : List Nat) : List (List Nat) :=
  members.foldl (fun comps i => absorb adj i comps) []

/-- Modelled from the spec: section 3, a cluster is a set of point indices within a
single band (missing `FoxTree` data model). -/
structure Cluster where
  band : Nat
  members : List Nat
  deriving DecidableEq, Repr

/-- Modelled from the spec: section 4.3, the missing Layer Clusterer; each
connected component of the band becomes one cluster.  The minimum count is not
applied here: section 9 applies it only to finished tree stacks. -/
def clusterBand (pts : List (Point3D ℚ)) (R : ℚ) (b : Band) : List Cluster :=
  (components (planarNear pts R) b.members).map fun m => { band := b.index, members := m }

/-- Modelled from the spec: section 3, the computed centroid (x, y) of a cluster
(missing `FoxTree` data model). -/
def centroid (pts : List (Point3D ℚ)) (c : Cluster) : ℚ × ℚ :=
  ((c.members.map fun i => (pointAt pts i).x).sum / c.members.length,
   (c.members.map fun i => (pointAt pts i).y).sum / c.members.length)

/-- Modelled from the spec: section 3, a tree stack is a set of clusters linked
across bands; the most recently added cluster comes first (missing `FoxTree`
data model). -/
structure TreeStack where
  clusters : List Cluster
  deriving DecidableEq, Repr

/-- Modelled from the spec: section 3, a tree stack owns, by union, the point
indices of its member clusters (missing `FoxTree` data model). -/
def TreeStack.members (s : TreeStack) : List Nat := s.clusters.flatMap Cluster.members

/-- Modelled from the spec: section 4.5, the sum of the point counts across all
clusters of a tree stack (missing Tree Assembler). -/
def TreeStack.pointCount (s : TreeStack) : Nat :=
  (s.clusters.map fun c => c.members.length).sum

/-- Modelled from the spec: section 4.4, the vertical continuity test of the
missing Cross-Layer Linker; the squared distance between the centroid of the new
cluster and the centroid of the most recently added cluster of the stack, when
that distance is within the radius. -/
def linkDistance (pts : List (Point3D ℚ)) (R : ℚ) (c : Cluster) (s : TreeStack) : Option ℚ :=
  match s.clusters with
  | [] => none
  | last :: _ =>
    let d := ((centroid pts c).1 - (centroid pts last).1) ^ 2
      + ((centroid pts c).2 - (centroid pts last).2) ^ 2
    if d ≤ R ^ 2 then some d else none

/-- Modelled from the spec: section 4.4, "the closest centroid wins" (missing
Cross-Layer Linker); the matching stack at the smallest distance, taken out of the
list of open stacks, the earlier stack on equal distances. -/
def pickClosest (dist : TreeStack → Option ℚ) :
    List TreeStack → Option (ℚ × TreeStack × List TreeStack)
  | [] => none
  | s :: rest =>
    match dist s, pickClosest dist rest with
    | none, none => none
    | none, some (d, best, others) => some (d, best, s :: others)
    | some ds, none => some (ds, s, rest)
    | some ds, some (d, best, others) =>
      if ds ≤ d then some (ds, s, rest) else some (d, best, s :: others)

/-- Modelled from the spec: section 4.4, the running collection of the missing
Cross-Layer Linker while one band is consumed; `closed` stacks are final, `waiting`
stacks are open and have no cluster of the current band yet, `linked` stacks have
received (or were started by) a cluster of the current band. -/
structure LinkState where
  closed : List TreeStack
  waiting : List TreeStack
  linked : List TreeStack
  deriving DecidableEq, Repr

/-- Modelled from the spec: section 4.4, linking one new cluster (missing
Cross-Layer Linker): it joins the closest matching open stack, or starts a new
stack when none matches; it never joins more than one stack, and a stack takes at
most one cluster of a band. -/
def linkCluster (pts : List (Point3D ℚ)) (R : ℚ) (st : LinkState) (c : Cluster) : LinkState :=
  match pickClosest (linkDistance pts R c) st.waiting with
  | some (_, best, others) =>
    { st with waiting := others, linked := st.linked ++ [{ clusters := c :: best.clusters }] }
  | none => { st with linked := st.linked ++ [{ clusters := [c] }] }

/-- Modelled from the spec: section 4.4, consuming one band (missing Cross-Layer
Linker): its clusters are linked one by one, then the open stacks that received no
cluster are closed and the others stay open for the next band. -/
def linkBand (pts : List (Point3D ℚ)) (R : ℚ) (st : LinkState) (cs : List Cluster) :
    LinkState :=
  let st' := cs.foldl (linkCluster pts R) st
  { closed := st'.closed ++ st'.waiting, waiting := st'.linked, linked := [] }

/-- Modelled from the spec: section 4.4, the missing Cross-Layer Linker; the bands'
cluster sets are consumed in slicing order and the stacks still open at the end are
closed.  The result lists the stacks in order of finalization. -/
def linkBands (pts : List (Point3D ℚ)) (R : ℚ) (bands : List (List Cluster)) :
    List TreeStack :=
  let st := bands.foldl (linkBand pts R) { closed := [], waiting := [], linked := [] }
  st.closed ++ st.waiting

/-- Modelled from the spec: sections 4.2 to 4.4, the finalized tree stacks of a run
of the missing `FoxTree::separateTrees`. -/
def finalStacks (ft : FoxTree) (dir : Direction) : List TreeStack :=
  linkBands ft.points ft.radius
    ((sliceBands ft.points ft.verticalResolution dir).map (clusterBand ft.points ft.radius))

/-- Modelled from the spec: section 4.5, the filter of the missing Tree Assembler;
stacks whose total point count is below `M` are discarded. -/
def surviving (M : Int) (finished : List TreeStack) : List TreeStack :=
  finished.filter fun s => decide (M ≤ (s.pointCount : Int))

/-- Modelled from the spec: section 4.5, the mapping from point index to tree ID of
the missing Tree Assembler; the trees get the IDs `next`, `next + 1`, ... in order,
0 is noise. -/
def treeIdFrom : Nat → List (List Nat) → Nat → Nat
  | _, [], _ => 0
  | next, t :: ts, i => if t.contains i then next else treeIdFrom (next + 1) ts i

/-- Modelled from the spec: section 6, the output contract of the missing
`FoxTree`; the trees (tree `k + 1` is `trees[k]`), the noise set, the tree ID of
every point index and the tree count `m_nTrees`. -/
structure Separation where
  trees : List (List Nat)
  noise : List Nat
  labels : List Nat
  m_nTrees : Nat
  deriving DecidableEq, Repr

/-- Modelled from the spec: section 4.5, the missing Tree Assembler; the surviving
stacks get sequential IDs from 1 in order of finalization, every other point is
noise (ID 0). -/
def assemble (n : Nat) (M : Int) (finished : List TreeStack) : Separation :=
  let trees := (surviving M finished).map TreeStack.members
  { trees := trees
    noise := (List.range n).filter fun i => treeIdFrom 1 trees i == 0
    labels := (List.range n).map (treeIdFrom 1 trees)
    m_nTrees := trees.length }

/-- Modelled from the spec: section 6, the direction flag of the missing
`FoxTree::separateTrees`; the drivers pass 1 for "top-down". -/
def directionOf (direction : Int) : Direction :=
  if direction = 1 then Direction.topDown else Direction.bottomUp

/-- Modelled from the spec: the missing `FoxTree::separateTrees`.  Section 7: an
empty point list and a non-positive radius, resolution or minimum count are
reported before any clustering; otherwise the run slices, clusters, links and
assembles (sections 4.2 to 4.5).  The second argument is reserved. -/
def separateTrees (ft : FoxTree) (direction : Int) (_mode : Int) :
    Except EngineError Separation :=
  if ft.points.isEmpty then Except.error EngineError.EmptyInputError
  else if ft.radius ≤ 0 ∨ ft.verticalResolution ≤ 0 ∨ ft.minPointsPerCluster ≤ 0 then
    Except.error EngineError.InvalidParameterError
  else
    Except.ok (assemble ft.points.length ft.minPointsPerCluster
      (finalStacks ft (directionOf direction)))

/-- All point indices held by the stacks of a linker state. -/
def LinkState.members (st : LinkState) : List Nat :=
  (st.closed ++ st.waiting ++ st.linked).flatMap TreeStack.members

/-! ## `segmentation_code/Source.cpp`: `main` -/

/-- A call on the engine made by a driver, in the order of the source text. -/
inductive Event where
  /-- the call `new FoxTree(points, radius, verticalResolution, minPointsPerCluster)` -/
  | construct (foxTree : FoxTree) : Event
  /-- the call `foxTree->separateTrees(direction, mode)` -/
  | separateTrees (direction : Int) (mode : Int) : Event
  /-- the call `foxTree->outputTrees(output_file, foxTree->m_nTrees)`; `debug`
  tells the variant `outputTrees_noahDebug` that `full_pipeline2` calls in the same
  place -/
  | outputTrees (debug : Bool) (output_file : List Char) (nTrees : Nat) : Event
  deriving DecidableEq, Repr

/-- Is the event a call of the output routine? -/
def Event.isOutput : Event → Bool
  | Event.outputTrees _ _ _ => true
  | _ => false

/-- A finished run of a driver: the engine calls made, and the value `main`
returned; `exit = none` when the run was ended by an error the engine reported,
for which `main` has no handler. -/
structure Run where
  events : List Event
  exit : Option Int
  deriving DecidableEq, Repr

/-- Source `to_double`: `stringstream ss(str); double value; ss >> value; return value;`.
The library extraction of a `double` is the parameter `extract` (the value it
stores, `none` when it leaves the target untouched); `uninit` is what the
uninitialised local holds. -/
def to_double (extract : List Char → Option ℚ) (uninit : ℚ) (str : List Char) : ℚ :=
  (extract str).getD uninit

/-- What a run of a driver depends on besides its command line: the library
conversions to `double` (`extractDouble` for `istream >> double`, `strtod` for
`%lf`), the contents of the uninitialised locals, and the file system seen by
`fopen` (`none` for a file that cannot be opened). -/
structure Env where
  extractDouble : List Char → Option ℚ
  strtod : List Char → ℚ
  uninitDouble : ℚ
  uninitInt : Int
  uninitPt : Point3D ℚ
  files : List Char → Option (List Char)

/-- Source `main` of `pipeline2/segmentation_code/Source.cpp` (`debug = false`) and of
`full_pipeline2/segmentation_code/Source.cpp` (`debug = true`).  `argv` holds the
program name and the arguments, `argc` is its length.  `fuel` bounds the iterations
of the loading loop, the result is `none` when the loop is still running after
`fuel` iterations.  The calls on the engine follow the source text one after the
other; an error reported by `separateTrees` ends the run at that call. -/
def segmentationMain (debug : Bool) (env : Env) (argv : List (List Char)) (fuel : Nat) :
    Option Run :=
  if argv.length < 6 then some { events := [], exit := some 1 }
  else
    let input_file := argv.getD 1 []
    let output_file := argv.getD 2 []
    let radius := to_double env.extractDouble env.uninitDouble (argv.getD 3 [])
    let verticalResolution := to_double env.extractDouble env.uninitDouble (argv.getD 4 [])
    let minPointsPerCluster := to_int env.uninitInt (argv.getD 5 [])
    match env.files input_file with
    | none => some { events := [], exit := some 1 }
    | some content =>
      match loadPoints env.strtod env.uninitPt content fuel with
      | none => none
      | some points =>
        let foxTree : FoxTree :=
          { points := points, radius := radius, verticalResolution := verticalResolution,
            minPointsPerCluster := minPointsPerCluster }
        match separateTrees foxTree 1 1 with
        | Except.error _ =>
          some { events := [Event.construct foxTree, Event.separateTrees 1 1], exit := none }
        | Except.ok result =>
          some { events := [Event.construct foxTree, Event.separateTrees 1 1,
                            Event.outputTrees debug output_file result.m_nTrees],
                 exit := some 0 }

/-- The engine object a driver constructs from its command line and the loaded
points: `new FoxTree(points, radius, verticalResolution, minPointsPerCluster)` with
`radius = to_double(argv[3])`, `verticalResolution = to_double(argv[4])`,
`minPointsPerCluster = to_int(argv[5])`. -/
def engineOf (env : Env) (argv : List (List Char)) (points : List (Point3D ℚ)) : FoxTree :=
  { points := points
    radius := to_double env.extractDouble env.uninitDouble (argv.getD 3 [])
    verticalResolution := to_double env.extractDouble env.uninitDouble (argv.getD 4 [])
    minPointsPerCluster := to_int env.uninitInt (argv.getD 5 []) }

/-! ## `point_wrap/example_alphawrap.cpp` -/

section AlphaWrap

variable {P F : Type}

end AlphaWrap

/-- Two points one above the other, unit radius and resolution, minimum count 1. -/
def sampleColumn : FoxTree :=
  { points := [⟨0, 0, 0⟩, ⟨0, 0, 1⟩], radius := 1, verticalResolution := 1,
    minPointsPerCluster := 1 }

/-- Four points, three in a column and one apart, minimum count 5. -/
def sampleSparse : FoxTree :=
  { points := [⟨0, 0, 0⟩, ⟨0, 0, 1⟩, ⟨0, 0, 2⟩, ⟨5, 5, 2⟩], radius := 1,
    verticalResolution := 1, minPointsPerCluster := 5 }

/-- An engine object with minimum count 0: an invalid configuration. -/
def sampleInvalid : FoxTree :=
  { points := [⟨0, 0, 0⟩], radius := 1, verticalResolution := 1, minPointsPerCluster := 0 }

/-- A command line `seg in out 1 1 0`: the minimum count given is 0. -/
def sampleArgv : List (List Char) :=
  [['s', 'e', 'g'], ['i', 'n'], ['o', 'u', 't'], ['1'], ['1'], ['0']]

/-- An environment whose only readable file `in` holds the triple `1 2 3`; every
`double` argument converts to 1 and every `%lf` to 0. -/
def sampleEnv : Env :=
  { extractDouble := fun _ => some 1
    strtod := fun _ => 0
    uninitDouble := 0
    uninitInt := 7
    uninitPt := ⟨0, 0, 0⟩
    files := fun name => if name = ['i', 'n'] then some ['1', ' ', '2', ' ', '3'] else none }

/-- The same environment with the file `in` holding the single character `x`. -/
def stuckEnv : Env :=
  { sampleEnv with files := fun name => if name = ['i', 'n'] then some ['x'] else none }

/-- The two lines `1 -2.5 3e2` and `.5 +7 8.`, the second without a newline. -/
def sampleTriples : List Triple :=
  [ { x := ⟨[], ['1'], [], []⟩, sx := [' ']
      y := ⟨['-'], ['2'], ['.', '5'], []⟩, sy := ['\t']
      z := ⟨[], ['3'], [], ['e', '2']⟩, sz := ['\n'] },
    { x := ⟨[], [], ['.', '5'], []⟩, sx := [' ']
      y := ⟨['+'], ['7'], [], []⟩, sy := [' ', ' ']
      z := ⟨[], ['8'], ['.'], []⟩, sz := [] } ]

/-! ## Facts about the character classes and decimal text -/

theorem isDigit_toNat (c : Char) (h : isDigit c = true) : 48 ≤ c.toNat ∧ c.toNat ≤ 57 := by
  simp only [isDigit, Bool.and_eq_true, decide_eq_true_eq] at h
  obtain ⟨h1, h2⟩ := h
  have h1' : ('0' : Char).toNat ≤ c.toNat := h1
  have h2' : c.toNat ≤ ('9' : Char).toNat := h2
  exact ⟨h1', h2'⟩

theorem isSpace_toNat (c : Char) (h : isSpace c = true) : c.toNat ≤ 32 := by
  simp only [isSpace, Bool.or_eq_true, beq_iff_eq] at h
  rcases h with ((((h | h) | h) | h) | h) | h <;> subst h <;> decide

theorem isDigit_not_space (c : Char) (h : isDigit c = true) : isSpace c = false := by
  have := isDigit_toNat c h
  cases hs : isSpace c with
  | false => rfl
  | true => have := isSpace_toNat c hs; omega

theorem isDigit_ne_minus (c : Char) (h : isDigit c = true) : c ≠ '-' := by
  intro hc; subst hc; exact absurd h (by decide)

theorem isDigit_ne_plus (c : Char) (h : isDigit c = true) : c ≠ '+' := by
  intro hc; subst hc; exact absurd h (by decide)

theorem digitChar_isDigit (d : Nat) (h : d < 10) : isDigit (Nat.digitChar d) = true := by
  interval_cases d <;> decide

theorem digitVal_digitChar (d : Nat) (h : d < 10) : digitVal (Nat.digitChar d) = d := by
  interval_cases d <;> decide

theorem digitsVal_append (ds : List Char) (c : Char) :
    digitsVal (ds ++ [c]) = digitsVal ds * 10 + digitVal c := by
  simp [digitsVal, List.foldl_append]

theorem toDigitsCore_spec (f : Nat) : ∀ (n : Nat) (acc : List Char), n < f →
    ∃ ds, Nat.toDigitsCore 10 f n acc = ds ++ acc ∧ ds ≠ [] ∧
      (∀ c ∈ ds, isDigit c = true) ∧ digitsVal ds = n := by
  induction f with
  | zero => intro n acc h; omega
  | succ f ih =>
    intro n acc h
    simp only [Nat.toDigitsCore]
    have hd : n % 10 < 10 := Nat.mod_lt _ (by decide)
    by_cases h0 : n / 10 = 0
    · refine ⟨[Nat.digitChar (n % 10)], ?_, by simp, ?_, ?_⟩
      · simp [h0]
      · intro c hc
        simp only [List.mem_singleton] at hc
        subst hc
        exact digitChar_isDigit _ hd
      · have : digitsVal [Nat.digitChar (n % 10)] = digitVal (Nat.digitChar (n % 10)) := by
          simp [digitsVal]
        rw [this, digitVal_digitChar _ hd]
        omega
    · have hlt : n / 10 < f := by omega
      obtain ⟨ds, hds, hne, hall, hval⟩ := ih (n / 10) (Nat.digitChar (n % 10) :: acc) hlt
      refine ⟨ds ++ [Nat.digitChar (n % 10)], ?_, by simp, ?_, ?_⟩
      · simp [h0, hds]
      · intro c hc
        rcases List.mem_append.mp hc with hc | hc
        · exact hall c hc
        · simp only [List.mem_singleton] at hc
          subst hc
          exact digitChar_isDigit _ hd
      · rw [digitsVal_append, hval, digitVal_digitChar _ hd]
        omega

theorem natText_spec (n : Nat) :
    natText n ≠ [] ∧ (∀ c ∈ natText n, isDigit c = true) ∧ digitsVal (natText n) = n := by
  obtain ⟨ds, hds, hne, hall, hval⟩ := toDigitsCore_spec (n + 1) n [] (Nat.lt_succ_self n)
  have : natText n = ds := by simp [natText, Nat.toDigits, hds]
  rw [this]
  exact ⟨hne, hall, hval⟩

theorem takeWhile_digits_append (ds rest : List Char) (h : ∀ c ∈ ds, isDigit c = true)
    (hr : stopsDigits rest) : (ds ++ rest).takeWhile isDigit = ds := by
  induction ds with
  | nil =>
    cases rest with
    | nil => rfl
    | cons c cs => simp only [stopsDigits] at hr; simp [List.takeWhile, hr]
  | cons d ds ih =>
    have hd : isDigit d = true := h d (List.mem_cons_self _ _)
    rw [List.cons_append, List.takeWhile_cons_of_pos hd,
      ih (fun c hc => h c (List.mem_cons_of_mem _ hc))]

theorem dropWhile_digits_append (ds rest : List Char) (h : ∀ c ∈ ds, isDigit c = true)
    (hr : stopsDigits rest) : (ds ++ rest).dropWhile isDigit = rest := by
  induction ds with
  | nil =>
    cases rest with
    | nil => rfl
    | cons c cs => simp only [stopsDigits] at hr; simp [List.dropWhile, hr]
  | cons d ds ih =>
    have hd : isDigit d = true := h d (List.mem_cons_self _ _)
    rw [List.cons_append, List.dropWhile_cons_of_pos hd,
      ih (fun c hc => h c (List.mem_cons_of_mem _ hc))]

theorem takeSign_digit (c : Char) (cs : List Char) (h : isDigit c = true) :
    takeSign (c :: cs) = (false, c :: cs) := by
  have h1 := isDigit_ne_minus c h
  have h2 := isDigit_ne_plus c h
  unfold takeSign
  split <;> simp_all

theorem extractInt_nonspace (c : Char) (cs : List Char) (h : isSpace c = false) :
    extractInt (c :: cs) = convertInt (takeSign (c :: cs)).1 (takeSign (c :: cs)).2 := by
  have hd : (c :: cs).dropWhile isSpace = c :: cs :=
    List.dropWhile_cons_of_neg (by simp [h])
  simp only [extractInt, hd]

theorem extractInt_space (c : Char) (cs : List Char) (h : isSpace c = true) :
    extractInt (c :: cs) = extractInt cs := by
  simp only [extractInt, List.dropWhile_cons_of_pos h]

theorem convertInt_digits (neg : Bool) (ds rest : List Char) (hne : ds ≠ [])
    (hall : ∀ c ∈ ds, isDigit c = true) (hr : stopsDigits rest)
    (hmin : INT_MIN ≤ (if neg then -(digitsVal ds : Int) else (digitsVal ds : Int)))
    (hmax : (if neg then -(digitsVal ds : Int) else (digitsVal ds : Int)) ≤ INT_MAX) :
    convertInt neg (ds ++ rest)
      = Extract.ok (if neg then -(digitsVal ds : Int) else (digitsVal ds : Int)) rest := by
  unfold convertInt
  rw [takeWhile_digits_append ds rest hall hr, dropWhile_digits_append ds rest hall hr]
  simp only [hne, if_false, not_lt.mpr hmin, not_lt.mpr hmax]

theorem extractInt_natText (n : Nat) (rest : List Char) (hr : stopsDigits rest)
    (hmax : (n : Int) ≤ INT_MAX) :
    extractInt (natText n ++ rest) = Extract.ok n rest := by
  obtain ⟨hne, hall, hval⟩ := natText_spec n
  have hconv := convertInt_digits false (natText n) rest hne hall hr
  simp only [hval, Bool.false_eq_true, if_false] at hconv
  have hmin : INT_MIN ≤ (n : Int) := by
    have : INT_MIN < 0 := by decide
    omega
  cases hds : natText n with
  | nil => exact absurd hds hne
  | cons d ds =>
    rw [hds] at hall hconv
    have hd : isDigit d = true := hall d (List.mem_cons_self _ _)
    rw [List.cons_append, extractInt_nonspace d _ (isDigit_not_space d hd), takeSign_digit d _ hd]
    exact hconv hmin hmax

theorem extractInt_neg_natText (n : Nat) (rest : List Char) (hr : stopsDigits rest)
    (hmin : INT_MIN ≤ -(n : Int)) :
    extractInt ('-' :: natText n ++ rest) = Extract.ok (-(n : Int)) rest := by
  obtain ⟨hne, hall, hval⟩ := natText_spec n
  have hconv := convertInt_digits true (natText n) rest hne hall hr
  simp only [hval, if_true] at hconv
  have hmax : -(n : Int) ≤ INT_MAX := by
    have : 0 < INT_MAX := by decide
    omega
  rw [List.cons_append, extractInt_nonspace '-' _ (by decide)]
  exact hconv hmin hmax

theorem extractInt_intText (n : Int) (rest : List Char) (hr : stopsDigits rest)
    (hmin : INT_MIN ≤ n) (hmax : n ≤ INT_MAX) :
    extractInt (intText n ++ rest) = Extract.ok n rest := by
  unfold intText
  split
  · next hneg =>
    have hn : -((n.natAbs : Nat) : Int) = n := by omega
    have := extractInt_neg_natText n.natAbs rest hr (by omega)
    rw [hn] at this
    exact this
  · next hpos =>
    have hn : ((n.natAbs : Nat) : Int) = n := by omega
    have := extractInt_natText n.natAbs rest hr (by omega)
    rw [hn] at this
    exact this

theorem readLoop_writeToFile (numbers : List Int) :
    ∀ fuel, numbers.length < fuel → (∀ n ∈ numbers, INT_MIN ≤ n ∧ n ≤ INT_MAX) →
      readLoop fuel (writeToFile numbers) = some numbers := by
  induction numbers with
  | nil =>
    intro fuel hf _
    cases fuel with
    | zero => simp at hf
    | succ fuel => simp [readLoop, writeToFile, extractInt]
  | cons n ns ih =>
    intro fuel hf hr
    cases fuel with
    | zero => simp at hf
    | succ fuel =>
      have hn := hr n (List.mem_cons_self _ _)
      have hx := extractInt_intText n (' ' :: writeToFile ns) (by simp [stopsDigits]; decide)
        hn.1 hn.2
      have hlen : ns.length < fuel := by simpa using hf
      have hrec := ih fuel hlen (fun m hm => hr m (List.mem_cons_of_mem _ hm))
      have hsp : readLoop fuel (' ' :: writeToFile ns) = readLoop fuel (writeToFile ns) := by
        cases fuel with
        | zero => rfl
        | succ fuel => simp only [readLoop, extractInt_space ' ' _ (by decide)]
      simp only [readLoop, writeToFile, hx, hsp, hrec, Option.map_some']

/-! ## C6: `to_int` inverts decimal printing -/

/-- C6: for every 32-bit signed integer `n`, `to_int` applied to the decimal text of
`n` returns `n`, whatever the uninitialised local held. -/
theorem to_int_decimal_text (uninit n : Int) (hmin : INT_MIN ≤ n) (hmax : n ≤ INT_MAX) :
    to_int uninit (intText n) = n := by
  have := extractInt_intText n [] trivial hmin hmax
  rw [List.append_nil] at this
  simp [to_int, this]

/-- Witness of C6 at `n = -2147483648`. -/
theorem to_int_decimal_text_witness :
    INT_MIN ≤ (-2147483648 : Int) ∧ (-2147483648 : Int) ≤ INT_MAX ∧
      to_int 7 (intText (-2147483648)) = -2147483648 :=
  ⟨by decide, by decide, to_int_decimal_text 7 (-2147483648) (by decide) (by decide)⟩

/-! ## C7: write/read round trip of `test.cpp` -/

/-- C7: for every vector of ints, the numbers that the extraction loop of
`readFromFile` reads from the text produced by `writeToFile` are exactly the written
vector, in the same order (the loop ends within one iteration per number plus one);
and for the vector of `main`, sorted before writing, the numbers read back are
8 16 23 42 73. -/
theorem write_read_round_trip (numbers : List Int) (fuel : Nat)
    (hrange : ∀ n ∈ numbers, INT_MIN ≤ n ∧ n ≤ INT_MAX) (hfuel : numbers.length < fuel) :
    readFromFile (writeToFile numbers) fuel = some numbers ∧
      sortInts [42, 16, 73, 8, 23] = [8, 16, 23, 42, 73] ∧
      ∀ k, 5 < k → testMain k = some [8, 16, 23, 42, 73] := by
  have hsort : sortInts [42, 16, 73, 8, 23] = [8, 16, 23, 42, 73] := by decide
  refine ⟨readLoop_writeToFile numbers fuel hfuel hrange, hsort, ?_⟩
  intro k hk
  unfold testMain readFromFile
  rw [hsort]
  exact readLoop_writeToFile [8, 16, 23, 42, 73] k hk (by decide)

/-- Witness of C7 at the vector `{-5, 0, 2147483647}`. -/
theorem write_read_round_trip_witness :
    ((∀ n ∈ [(-5 : Int), 0, 2147483647], INT_MIN ≤ n ∧ n ≤ INT_MAX) ∧
      [(-5 : Int), 0, 2147483647].length < 4) ∧
      readFromFile (writeToFile [-5, 0, 2147483647]) 4 = some [-5, 0, 2147483647] ∧
      sortInts [42, 16, 73, 8, 23] = [8, 16, 23, 42, 73] ∧
      ∀ k, 5 < k → testMain k = some [8, 16, 23, 42, 73] :=
  ⟨⟨by decide, by decide⟩, write_read_round_trip [-5, 0, 2147483647] 4 (by decide) (by decide)⟩

theorem all_digits_mem {ds : List Char} (h : ds.all isDigit = true) :
    ∀ c ∈ ds, isDigit c = true := by
  simpa [List.all_eq_true] using h

theorem all_space_mem {ws : List Char} (h : ws.all isSpace = true) :
    ∀ c ∈ ws, isSpace c = true := by
  simpa [List.all_eq_true] using h

theorem dropWhile_space_append (ws rest : List Char) (h : ∀ c ∈ ws, isSpace c = true) :
    (ws ++ rest).dropWhile isSpace = rest.dropWhile isSpace := by
  induction ws with
  | nil => rfl
  | cons w ws ih =>
    rw [List.cons_append, List.dropWhile_cons_of_pos (h w (List.mem_cons_self _ _)),
      ih (fun c hc => h c (List.mem_cons_of_mem _ hc))]

theorem endsNumber_stopsDigits {rest : List Char} (h : endsNumber rest) : stopsDigits rest := by
  cases rest with
  | nil => trivial
  | cons c cs =>
    simp only [endsNumber] at h
    simp only [stopsDigits]
    cases hd : isDigit c with
    | false => rfl
    | true => rw [isDigit_not_space c hd] at h; exact absurd h (by simp)

theorem splitSign_of_head {s : List Char}
    (h : ∀ c cs, s = c :: cs → c ≠ '-' ∧ c ≠ '+') : splitSign s = ([], s) := by
  unfold splitSign
  split
  · next cs => exact absurd rfl (h '-' cs rfl).1
  · next cs => exact absurd rfl (h '+' cs rfl).2
  · rfl

theorem splitSign_sign (sg body : List Char) (hs : isSignText sg = true)
    (h : ∀ c cs, body = c :: cs → c ≠ '-' ∧ c ≠ '+') :
    splitSign (sg ++ body) = (sg, body) := by
  simp only [isSignText, Bool.or_eq_true, beq_iff_eq] at hs
  rcases hs with (hs | hs) | hs
  · subst hs; exact splitSign_of_head h
  · subst hs; rfl
  · subst hs; rfl


theorem isSpace_not_digit (c : Char) (h : isSpace c = true) : isDigit c = false := by
  cases hd : isDigit c with
  | false => rfl
  | true => rw [isDigit_not_space c hd] at h; exact absurd h (by simp)

theorem stopsDigits_of_head {s : List Char} (h : ∀ c cs, s = c :: cs → isDigit c = false) :
    stopsDigits s := by
  cases s with
  | nil => trivial
  | cons c cs => exact h c cs rfl

theorem splitExponent_spec (ex rest : List Char) (he : isExponentText ex = true)
    (hr : endsNumber rest) : splitExponent (ex ++ rest) = (ex, rest, true) := by
  cases ex with
  | nil =>
    cases rest with
    | nil => rfl
    | cons c cs =>
      simp only [endsNumber] at hr
      have h1 : (c == 'e') = false := by
        cases h : c == 'e' with
        | false => rfl
        | true => rw [beq_iff_eq] at h; subst h; exact absurd hr (by decide)
      have h2 : (c == 'E') = false := by
        cases h : c == 'E' with
        | false => rfl
        | true => rw [beq_iff_eq] at h; subst h; exact absurd hr (by decide)
      simp [splitExponent, h1, h2]
  | cons e r =>
    simp only [isExponentText, Bool.and_eq_true] at he
    obtain ⟨hE, hbody⟩ := he
    have hstop := endsNumber_stopsDigits hr
    simp only [List.cons_append, splitExponent, hE, if_true]
    rw [Bool.or_eq_true] at hbody
    rcases hbody with hb | hb
    · -- digits only
      simp only [Bool.and_eq_true, Bool.not_eq_true', List.isEmpty_eq_false] at hb
      obtain ⟨hne, hall⟩ := hb
      have hall' := all_digits_mem hall
      have hsg : splitSign (r ++ rest) = ([], r ++ rest) := by
        apply splitSign_of_head
        intro c cs hc
        cases r with
        | nil => exact absurd rfl hne
        | cons d ds =>
          simp only [List.cons_append, List.cons.injEq] at hc
          have hd := hall' d (List.mem_cons_self _ _)
          rw [hc.1] at hd
          exact ⟨isDigit_ne_minus c hd, isDigit_ne_plus c hd⟩
      rw [hsg]
      simp only [takeWhile_digits_append r rest hall' hstop,
        dropWhile_digits_append r rest hall' hstop, List.nil_append]
      cases r with
      | nil => exact absurd rfl hne
      | cons d ds => rfl
    · cases r with
      | nil => simp at hb
      | cons s ds =>
        simp only [Bool.and_eq_true, Bool.or_eq_true, beq_iff_eq, Bool.not_eq_true',
          List.isEmpty_eq_false] at hb
        obtain ⟨⟨hs, hne⟩, hall⟩ := hb
        have hall' := all_digits_mem hall
        have hsg : splitSign (s :: ds ++ rest) = ([s], ds ++ rest) := by
          rcases hs with hs | hs <;> subst hs <;> rfl
        rw [hsg]
        simp only [takeWhile_digits_append ds rest hall' hstop,
          dropWhile_digits_append ds rest hall' hstop]
        cases ds with
        | nil => exact absurd rfl hne
        | cons d ds => rfl


theorem exponent_head (ex rest : List Char) (he : isExponentText ex = true)
    (hr : endsNumber rest) :
    ∀ c cs, ex ++ rest = c :: cs → isDigit c = false ∧ c ≠ '.' ∧ c ≠ '-' ∧ c ≠ '+' := by
  intro c cs hc
  cases ex with
  | nil =>
    cases rest with
    | nil => simp at hc
    | cons r rs =>
      simp only [List.nil_append, List.cons.injEq] at hc
      simp only [endsNumber] at hr
      rw [hc.1] at hr
      refine ⟨isSpace_not_digit c hr, ?_, ?_, ?_⟩ <;>
        (intro h; subst h; exact absurd hr (by decide))
  | cons e r =>
    simp only [List.cons_append, List.cons.injEq] at hc
    simp only [isExponentText, Bool.and_eq_true, Bool.or_eq_true, beq_iff_eq] at he
    rw [hc.1] at he
    rcases he.1 with h | h <;> subst h <;> decide

theorem splitFraction_spec (fr tail : List Char) (hf : isFractionText fr = true)
    (ht : ∀ c cs, tail = c :: cs → isDigit c = false ∧ c ≠ '.') :
    splitFraction (fr ++ tail) = (fr, tail) := by
  have hstop : stopsDigits tail := stopsDigits_of_head (fun c cs h => (ht c cs h).1)
  cases fr with
  | nil =>
    cases tail with
    | nil => rfl
    | cons c cs =>
      have hne := (ht c cs rfl).2
      simp only [List.nil_append]
      unfold splitFraction
      split
      · next cs' heq => simp only [List.cons.injEq] at heq; exact absurd heq.1 hne
      · rfl
  | cons p fd =>
    simp only [isFractionText, Bool.and_eq_true, beq_iff_eq] at hf
    obtain ⟨hp, hall⟩ := hf
    subst hp
    have hall' := all_digits_mem hall
    simp only [List.cons_append, splitFraction, takeWhile_digits_append fd tail hall' hstop,
      dropWhile_digits_append fd tail hall' hstop]

theorem matchFloat_decimal (d : Decimal) (rest : List Char) (hd : d.wellFormed = true)
    (hr : endsNumber rest) : matchFloat (d.text ++ rest) = (d.text, rest, true) := by
  obtain ⟨sg, ip, fr, ex⟩ := d
  simp only [Decimal.wellFormed, Bool.and_eq_true, Bool.or_eq_true, Bool.not_eq_true',
    List.isEmpty_eq_false, decide_eq_true_eq] at hd
  obtain ⟨⟨⟨⟨hsg, hip⟩, hfr⟩, hex⟩, hmant⟩ := hd
  have hip' := all_digits_mem hip
  have hexh := exponent_head ex rest hex hr
  -- what follows the integer digits does not continue them
  have hfrh : ∀ c cs, fr ++ (ex ++ rest) = c :: cs → isDigit c = false ∧ c ≠ '-' ∧ c ≠ '+' := by
    intro c cs hc
    cases fr with
    | nil => exact ⟨(hexh c cs hc).1, (hexh c cs hc).2.2⟩
    | cons p fd =>
      simp only [isFractionText, Bool.and_eq_true, beq_iff_eq] at hfr
      simp only [List.cons_append, List.cons.injEq] at hc
      rw [← hc.1, hfr.1]
      decide
  have hbody : ∀ c cs, ip ++ (fr ++ (ex ++ rest)) = c :: cs → c ≠ '-' ∧ c ≠ '+' := by
    intro c cs hc
    cases ip with
    | nil => exact (hfrh c cs hc).2
    | cons i is =>
      simp only [List.cons_append, List.cons.injEq] at hc
      have hi := hip' i (List.mem_cons_self _ _)
      rw [hc.1] at hi
      exact ⟨isDigit_ne_minus c hi, isDigit_ne_plus c hi⟩
  have hstop : stopsDigits (fr ++ (ex ++ rest)) :=
    stopsDigits_of_head (fun c cs h => (hfrh c cs h).1)
  have htext : (⟨sg, ip, fr, ex⟩ : Decimal).text ++ rest = sg ++ (ip ++ (fr ++ (ex ++ rest))) := by
    simp [Decimal.text, List.append_assoc]
  have hempty : (ip.isEmpty && decide (fr.length ≤ 1)) = false := by
    rcases hmant with h | h
    · cases ip with
      | nil => exact absurd rfl h
      | cons i is => rfl
    · have : decide (fr.length ≤ 1) = false := by simp; omega
      simp [this]
  rw [htext]
  unfold matchFloat
  simp only [splitSign_sign sg _ hsg hbody, takeWhile_digits_append ip _ hip' hstop,
    dropWhile_digits_append ip _ hip' hstop,
    splitFraction_spec fr (ex ++ rest) hfr (fun c cs h => ⟨(hexh c cs h).1, (hexh c cs h).2.1⟩),
    hempty, splitExponent_spec ex rest hex hr]
  simp [Decimal.text]


theorem decimal_head (d : Decimal) (hd : d.wellFormed = true) (rest : List Char) :
    ∃ c cs, d.text ++ rest = c :: cs ∧ isSpace c = false := by
  obtain ⟨sg, ip, fr, ex⟩ := d
  simp only [Decimal.wellFormed, Bool.and_eq_true, Bool.or_eq_true, Bool.not_eq_true',
    List.isEmpty_eq_false, decide_eq_true_eq] at hd
  obtain ⟨⟨⟨⟨hsg, hip⟩, hfr⟩, _⟩, hmant⟩ := hd
  simp only [Decimal.text]
  simp only [isSignText, Bool.or_eq_true, beq_iff_eq] at hsg
  rcases hsg with (hs | hs) | hs
  · subst hs
    cases ip with
    | cons i is =>
      exact ⟨i, _, rfl, isDigit_not_space i (all_digits_mem hip i (List.mem_cons_self _ _))⟩
    | nil =>
      cases fr with
      | nil => simp at hmant
      | cons p fd =>
        simp only [isFractionText, Bool.and_eq_true, beq_iff_eq] at hfr
        refine ⟨p, _, rfl, ?_⟩
        rw [hfr.1]; decide
  · subst hs; exact ⟨'+', _, rfl, by decide⟩
  · subst hs; exact ⟨'-', _, rfl, by decide⟩

theorem skipSpace_lead (ws : List Char) (c : Char) (cs : List Char) (e : Bool)
    (hws : ∀ w ∈ ws, isSpace w = true) (hc : isSpace c = false) :
    skipSpace ⟨ws ++ c :: cs, e⟩ = ⟨c :: cs, e⟩ := by
  have : (c :: cs).dropWhile isSpace = c :: cs := List.dropWhile_cons_of_neg (by simp [hc])
  simp only [skipSpace, dropWhile_space_append ws _ hws, this]

theorem skipSpace_only (ws : List Char) (e : Bool) (hws : ∀ w ∈ ws, isSpace w = true) :
    skipSpace ⟨ws, e⟩ = ⟨[], true⟩ := by
  have h := dropWhile_space_append ws [] hws
  rw [List.append_nil] at h
  simp only [skipSpace, h, List.dropWhile_nil]

theorem scanLf_decimal (ws : List Char) (d : Decimal) (rest : List Char) (e : Bool)
    (hws : ∀ w ∈ ws, isSpace w = true) (hd : d.wellFormed = true) (hr : endsNumber rest) :
    scanLf ⟨ws ++ (d.text ++ rest), e⟩ = (some d.text, ⟨rest, rest.isEmpty⟩) := by
  obtain ⟨c, cs, hcs, hc⟩ := decimal_head d hd rest
  have hm := matchFloat_decimal d rest hd hr
  rw [hcs] at hm
  unfold scanLf
  rw [hcs, skipSpace_lead ws c cs e hws hc]
  simp only [hm, if_true]

theorem endsNumber_space_append (ws rest : List Char) (hne : ws ≠ [])
    (hws : ∀ w ∈ ws, isSpace w = true) : endsNumber (ws ++ rest) := by
  cases ws with
  | nil => exact absurd rfl hne
  | cons w ws => exact hws w (List.mem_cons_self _ _)

theorem isEmpty_space_append (ws rest : List Char) (hne : ws ≠ []) :
    (ws ++ rest).isEmpty = false := by
  cases ws with
  | nil => exact absurd rfl hne
  | cons w ws => rfl

theorem scanLf_skipSpace_decimal (ws : List Char) (d : Decimal) (rest : List Char) (e : Bool)
    (hws : ∀ w ∈ ws, isSpace w = true) (hd : d.wellFormed = true) (hr : endsNumber rest) :
    scanLf (skipSpace ⟨ws ++ (d.text ++ rest), e⟩) = (some d.text, ⟨rest, rest.isEmpty⟩) := by
  obtain ⟨c, cs, hcs, hc⟩ := decimal_head d hd rest
  have h := scanLf_decimal [] d rest e (by simp) hd hr
  rw [hcs, skipSpace_lead ws c cs e hws hc]
  rw [List.nil_append, hcs] at h
  exact h

/-- One call of `fscanf` on a buffer that starts with a well-formed triple. -/
theorem fscanfPoint_triple {D : Type} (strtod : List Char → D) (lead : List Char) (t : Triple)
    (tail : List Char) (e : Bool) (tempPt : Point3D D)
    (hlead : ∀ w ∈ lead, isSpace w = true) (ht : t.wellFormed = true)
    (htail : ∀ c cs, tail = c :: cs → isSpace c = false)
    (hsz : tail ≠ [] → t.sz ≠ []) :
    fscanfPoint strtod ⟨lead ++ (t.text ++ tail), e⟩ tempPt
      = (if tail = [] then ⟨[], true⟩ else ⟨tail, false⟩, t.point strtod) := by
  obtain ⟨x, sx, y, sy, z, sz⟩ := t
  simp only [Triple.wellFormed, Bool.and_eq_true, Bool.not_eq_true', List.isEmpty_eq_false]
    at ht
  obtain ⟨⟨⟨⟨⟨⟨⟨hx, hy⟩, hz⟩, hsxne⟩, hsx⟩, hsyne⟩, hsy⟩, hszs⟩ := ht
  have hsx' := all_space_mem hsx
  have hsy' := all_space_mem hsy
  have hsz' := all_space_mem hszs
  simp only at hsz
  have htxt : (⟨x, sx, y, sy, z, sz⟩ : Triple).text ++ tail
      = x.text ++ (sx ++ (y.text ++ (sy ++ (z.text ++ (sz ++ tail))))) := by
    simp [Triple.text, List.append_assoc]
  have hend : endsNumber (sz ++ tail) := by
    cases sz with
    | nil =>
      cases tail with
      | nil => trivial
      | cons c cs => exact absurd rfl (hsz (by simp))
    | cons w ws => exact hsz' w (List.mem_cons_self _ _)
  have h1 := scanLf_decimal lead x _ e hlead hx
    (endsNumber_space_append sx (y.text ++ (sy ++ (z.text ++ (sz ++ tail)))) hsxne hsx')
  have h2 := scanLf_skipSpace_decimal sx y (sy ++ (z.text ++ (sz ++ tail)))
    (sx ++ (y.text ++ (sy ++ (z.text ++ (sz ++ tail))))).isEmpty hsx' hy
    (endsNumber_space_append sy (z.text ++ (sz ++ tail)) hsyne hsy')
  have h3 := scanLf_skipSpace_decimal sy z (sz ++ tail)
    (sy ++ (z.text ++ (sz ++ tail))).isEmpty hsy' hz hend
  have h4 : skipSpace ⟨sz ++ tail, (sz ++ tail).isEmpty⟩
      = if tail = [] then ⟨[], true⟩ else ⟨tail, false⟩ := by
    cases tail with
    | nil =>
      rw [List.append_nil]
      simp only [if_true]
      exact skipSpace_only sz _ hsz'
    | cons c cs =>
      have hszne : sz ≠ [] := hsz (by simp)
      rw [skipSpace_lead sz c cs _ hsz' (htail c cs rfl), isEmpty_space_append sz _ hszne]
      simp
  rw [htxt]
  unfold fscanfPoint
  simp only [h1, h2, h3, h4, Triple.point]


theorem loadLoop_triples {D : Type} (strtod : List Char → D) :
    ∀ (ts : List Triple) (lead : List Char) (tempPt : Point3D D) (points : List (Point3D D))
      (fuel : Nat),
      ts ≠ [] → (∀ w ∈ lead, isSpace w = true) → (∀ t ∈ ts, t.wellFormed = true) →
      separated ts = true → ts.length < fuel →
      loadLoop strtod fuel ⟨fileText lead ts, false⟩ tempPt points
        = some (points ++ ts.map (Triple.point strtod)) := by
  intro ts
  induction ts with
  | nil => intro _ _ _ _ h; exact absurd rfl h
  | cons t ts ih =>
    intro lead tempPt points fuel _ hlead hwf hsep hfuel
    have ht := hwf t (List.mem_cons_self _ _)
    cases fuel with
    | zero => simp at hfuel
    | succ fuel =>
      have hfuel' : ts.length < fuel := by simpa using hfuel
      have htext : fileText lead (t :: ts) = lead ++ (t.text ++ fileText [] ts) := by
        simp [fileText]
      cases ts with
      | nil =>
        have hstep := fscanfPoint_triple strtod lead t [] false tempPt hlead ht
          (by intro c cs h; simp at h) (by intro h; exact absurd rfl h)
        simp only [if_true] at hstep
        have hnil : fileText ([] : List Char) ([] : List Triple) = [] := rfl
        rw [htext, hnil]
        cases fuel with
        | zero => simp at hfuel'
        | succ fuel =>
          simp only [loadLoop, feof, Bool.false_eq_true, if_false, hstep, if_true,
            List.map_cons, List.map_nil]
      | cons t' ts' =>
        have ht' := hwf t' (List.mem_cons_of_mem _ (List.mem_cons_self _ _))
        have hx' : t'.x.wellFormed = true := by
          simp only [Triple.wellFormed, Bool.and_eq_true] at ht'
          exact ht'.1.1.1.1.1.1.1
        have hsep' : t.sz ≠ [] ∧ separated (t' :: ts') = true := by
          simp only [separated, Bool.and_eq_true, Bool.not_eq_true', List.isEmpty_eq_false]
            at hsep
          exact hsep
        have htail : ∀ c cs, fileText [] (t' :: ts') = c :: cs → isSpace c = false := by
          intro c cs hc
          have hf : fileText [] (t' :: ts')
              = t'.x.text ++ (t'.sx ++ t'.y.text ++ t'.sy ++ t'.z.text ++ t'.sz
                  ++ ts'.flatMap Triple.text) := by
            simp [fileText, Triple.text, List.append_assoc]
          obtain ⟨c', cs', hcs', hc'⟩ := decimal_head t'.x hx' (t'.sx ++ t'.y.text ++ t'.sy
            ++ t'.z.text ++ t'.sz ++ ts'.flatMap Triple.text)
          rw [hf, hcs'] at hc
          simp only [List.cons.injEq] at hc
          rw [← hc.1]; exact hc'
        have hne : fileText [] (t' :: ts') ≠ [] := by
          intro h
          obtain ⟨c', cs', hcs', _⟩ := decimal_head t'.x hx' (t'.sx ++ t'.y.text ++ t'.sy
            ++ t'.z.text ++ t'.sz ++ ts'.flatMap Triple.text)
          have hf : fileText [] (t' :: ts')
              = t'.x.text ++ (t'.sx ++ t'.y.text ++ t'.sy ++ t'.z.text ++ t'.sz
                  ++ ts'.flatMap Triple.text) := by
            simp [fileText, Triple.text, List.append_assoc]
          rw [hf, hcs'] at h
          exact absurd h (by simp)
        have hstep := fscanfPoint_triple strtod lead t (fileText [] (t' :: ts')) false tempPt
          hlead ht htail (fun _ => hsep'.1)
        simp only [hne, if_false] at hstep
        have hrec := ih [] (t.point strtod) (points ++ [t.point strtod]) fuel (by simp)
          (by simp) (fun u hu => hwf u (List.mem_cons_of_mem _ hu)) hsep'.2 hfuel'
        rw [htext]
        simp only [loadLoop, feof, Bool.false_eq_true, if_false, hstep]
        rw [hrec]
        simp

theorem fscanfPoint_stuck {D : Type} (strtod : List Char → D) (tempPt : Point3D D) :
    fscanfPoint strtod ⟨['x'], false⟩ tempPt = (⟨['x'], false⟩, tempPt) := by
  rfl

theorem loadLoop_stuck {D : Type} (strtod : List Char → D) :
    ∀ (fuel : Nat) (tempPt : Point3D D) (points : List (Point3D D)),
      loadLoop strtod fuel ⟨['x'], false⟩ tempPt points = none := by
  intro fuel
  induction fuel with
  | zero => intro _ _; rfl
  | succ fuel ih =>
    intro tempPt points
    simp only [loadLoop, feof, Bool.false_eq_true, if_false, fscanfPoint_stuck]
    exact ih _ _


/-! ## The engine model: every point index is carried through each stage -/

theorem absorb_flatten_perm (adj : Nat → Nat → Bool) (i : Nat) (comps : List (List Nat)) :
    (absorb adj i comps).flatten.Perm (i :: comps.flatten) := by
  unfold absorb
  rw [List.flatten_cons, List.cons_append]
  refine List.Perm.cons i ?_
  rw [← List.flatten_append]
  exact (List.filter_append_perm (fun c => c.any (adj i)) comps).flatten

theorem foldl_absorb_perm (adj : Nat → Nat → Bool) (ms : List Nat) :
    ∀ comps : List (List Nat),
      (ms.foldl (fun comps i => absorb adj i comps) comps).flatten.Perm (ms ++ comps.flatten) := by
  induction ms with
  | nil => intro comps; exact List.Perm.refl _
  | cons m ms ih =>
    intro comps
    rw [List.foldl_cons]
    refine (ih (absorb adj m comps)).trans ?_
    refine ((absorb_flatten_perm adj m comps).append_left ms).trans ?_
    exact List.perm_middle

theorem components_flatten_perm (adj : Nat → Nat → Bool) (ms : List Nat) :
    (components adj ms).flatten.Perm ms := by
  have h := foldl_absorb_perm adj ms []
  simpa [components] using h

theorem clusterBand_members_perm (pts : List (Point3D ℚ)) (R : ℚ) (b : Band) :
    ((clusterBand pts R b).flatMap Cluster.members).Perm b.members := by
  have h := components_flatten_perm (planarNear pts R) b.members
  have e : (clusterBand pts R b).flatMap Cluster.members
      = (components (planarNear pts R) b.members).flatten := by
    simp only [clusterBand, List.flatMap_map, List.flatten_eq_flatMap]
    rfl
  rw [e]
  exact h

theorem pickClosest_perm (dist : TreeStack → Option ℚ) :
    ∀ (l : List TreeStack) (d : ℚ) (best : TreeStack) (others : List TreeStack),
      pickClosest dist l = some (d, best, others) → (best :: others).Perm l := by
  intro l
  induction l with
  | nil => intro d best others h; simp [pickClosest] at h
  | cons s rest ih =>
    intro d best others h
    unfold pickClosest at h
    split at h
    · exact absurd h (by simp)
    · next d' best' others' _ hrec =>
      simp only [Option.some.injEq, Prod.mk.injEq] at h
      obtain ⟨_, hb, ho⟩ := h
      subst hb; subst ho
      exact (List.Perm.swap _ _ _).trans ((ih _ _ _ hrec).cons s)
    · simp only [Option.some.injEq, Prod.mk.injEq] at h
      obtain ⟨_, hb, ho⟩ := h
      subst hb; subst ho
      exact List.Perm.refl _
    · next ds d' best' others' _ hrec =>
      split at h
      · simp only [Option.some.injEq, Prod.mk.injEq] at h
        obtain ⟨_, hb, ho⟩ := h
        subst hb; subst ho
        exact List.Perm.refl _
      · simp only [Option.some.injEq, Prod.mk.injEq] at h
        obtain ⟨_, hb, ho⟩ := h
        subst hb; subst ho
        exact (List.Perm.swap _ _ _).trans ((ih _ _ _ hrec).cons s)


theorem linkCluster_members (pts : List (Point3D ℚ)) (R : ℚ) (st : LinkState) (c : Cluster) :
    (linkCluster pts R st c).members.Perm (c.members ++ st.members) := by
  unfold linkCluster
  split
  · next d best others hpick =>
    have hp := (pickClosest_perm _ _ _ _ _ hpick).flatMap_right TreeStack.members
    rw [List.perm_iff_count] at hp ⊢
    intro a
    have ha := hp a
    simp only [LinkState.members, List.flatMap_append, List.flatMap_cons, List.flatMap_nil,
      List.count_append, TreeStack.members, List.append_nil] at ha ⊢
    omega
  · rw [List.perm_iff_count]
    intro a
    simp only [LinkState.members, List.flatMap_append, List.flatMap_cons, List.flatMap_nil,
      List.count_append, TreeStack.members, List.append_nil]
    omega

theorem foldl_linkCluster_members (pts : List (Point3D ℚ)) (R : ℚ) (cs : List Cluster) :
    ∀ st : LinkState,
      (cs.foldl (linkCluster pts R) st).members.Perm (cs.flatMap Cluster.members ++ st.members) := by
  induction cs with
  | nil => intro st; exact List.Perm.refl _
  | cons c cs ih =>
    intro st
    rw [List.foldl_cons]
    refine (ih _).trans ?_
    have h := linkCluster_members pts R st c
    rw [List.perm_iff_count] at h ⊢
    intro a
    have ha := h a
    simp only [List.flatMap_cons, List.count_append] at ha ⊢
    omega

theorem linkBand_members (pts : List (Point3D ℚ)) (R : ℚ) (st : LinkState) (cs : List Cluster) :
    (linkBand pts R st cs).members.Perm (cs.flatMap Cluster.members ++ st.members) := by
  refine List.Perm.trans ?_ (foldl_linkCluster_members pts R cs st)
  unfold linkBand
  simp only [LinkState.members, List.append_nil, List.append_assoc]
  exact List.Perm.refl _

theorem foldl_linkBand_members (pts : List (Point3D ℚ)) (R : ℚ) (bands : List (List Cluster)) :
    ∀ st : LinkState,
      (bands.foldl (linkBand pts R) st).members.Perm
        ((bands.flatMap fun cs => cs.flatMap Cluster.members) ++ st.members) := by
  induction bands with
  | nil => intro st; exact List.Perm.refl _
  | cons cs bands ih =>
    intro st
    rw [List.foldl_cons]
    refine (ih _).trans ?_
    have h := linkBand_members pts R st cs
    rw [List.perm_iff_count] at h ⊢
    intro a
    have ha := h a
    simp only [List.flatMap_cons, List.count_append] at ha ⊢
    omega

theorem linkBand_linked (pts : List (Point3D ℚ)) (R : ℚ) (st : LinkState) (cs : List Cluster) :
    (linkBand pts R st cs).linked = [] := rfl

theorem foldl_linkBand_linked (pts : List (Point3D ℚ)) (R : ℚ) (bands : List (List Cluster)) :
    ∀ st : LinkState, st.linked = [] → (bands.foldl (linkBand pts R) st).linked = [] := by
  induction bands with
  | nil => intro st h; exact h
  | cons cs bands ih => intro st _; rw [List.foldl_cons]; exact ih _ (linkBand_linked pts R st cs)

theorem linkBands_members (pts : List (Point3D ℚ)) (R : ℚ) (bands : List (List Cluster)) :
    ((linkBands pts R bands).flatMap TreeStack.members).Perm
      (bands.flatMap fun cs => cs.flatMap Cluster.members) := by
  have h := foldl_linkBand_members pts R bands { closed := [], waiting := [], linked := [] }
  have hl := foldl_linkBand_linked pts R bands { closed := [], waiting := [], linked := [] } rfl
  simp only [LinkState.members, hl, List.append_nil, List.nil_append, List.flatMap_nil] at h
  exact h


theorem sliceBands_members_nodup (pts : List (Point3D ℚ)) (V : ℚ) (dir : Direction) :
    ((sliceBands pts V dir).flatMap Band.members).Nodup := by
  unfold sliceBands
  rw [List.flatMap_map, List.nodup_flatMap]
  constructor
  · intro k _
    exact List.Nodup.filter _ (List.nodup_range _)
  · refine List.Nodup.pairwise_of_forall_ne (List.nodup_range _) ?_
    intro a _ b _ hab
    simp only [Function.onFun]
    intro i hia hib
    simp only [List.mem_filter, beq_iff_eq] at hia hib
    exact hab (hia.2.symm.trans hib.2)

theorem sliceBands_members_lt (pts : List (Point3D ℚ)) (V : ℚ) (dir : Direction) :
    ∀ i ∈ (sliceBands pts V dir).flatMap Band.members, i < pts.length := by
  intro i hi
  unfold sliceBands at hi
  rw [List.flatMap_map, List.mem_flatMap] at hi
  obtain ⟨k, _, hik⟩ := hi
  simp only [List.mem_filter, List.mem_range] at hik
  exact hik.1

theorem finalStacks_members_perm (ft : FoxTree) (dir : Direction) :
    ((finalStacks ft dir).flatMap TreeStack.members).Perm
      ((sliceBands ft.points ft.verticalResolution dir).flatMap Band.members) := by
  unfold finalStacks
  refine (linkBands_members _ _ _).trans ?_
  rw [List.flatMap_map]
  exact List.Perm.flatMap_left _ (fun b _ => clusterBand_members_perm ft.points ft.radius b)

theorem finalStacks_members_nodup (ft : FoxTree) (dir : Direction) :
    ((finalStacks ft dir).flatMap TreeStack.members).Nodup :=
  (finalStacks_members_perm ft dir).nodup_iff.mpr (sliceBands_members_nodup _ _ _)

theorem finalStacks_members_lt (ft : FoxTree) (dir : Direction) :
    ∀ i ∈ (finalStacks ft dir).flatMap TreeStack.members, i < ft.points.length := by
  intro i hi
  exact sliceBands_members_lt _ _ _ i ((finalStacks_members_perm ft dir).mem_iff.mp hi)

theorem pointCount_eq_length (s : TreeStack) : s.pointCount = s.members.length := by
  simp only [TreeStack.pointCount, TreeStack.members, List.length_flatMap]
  rfl


/-! ## The engine model: tree IDs -/

theorem treeIdFrom_range (trees : List (List Nat)) (i : Nat) :
    ∀ next, treeIdFrom next trees i = 0 ∨
      (next ≤ treeIdFrom next trees i ∧ treeIdFrom next trees i < next + trees.length) := by
  induction trees with
  | nil => intro next; left; rfl
  | cons t ts ih =>
    intro next
    unfold treeIdFrom
    split
    · right; simp
    · rcases ih (next + 1) with h | h
      · left; exact h
      · right; simp only [List.length_cons]; omega

theorem treeIdFrom_zero_iff (trees : List (List Nat)) (i : Nat) :
    ∀ next, 1 ≤ next → (treeIdFrom next trees i = 0 ↔ ∀ t ∈ trees, i ∉ t) := by
  induction trees with
  | nil => intro next _; simp [treeIdFrom]
  | cons t ts ih =>
    intro next hn
    unfold treeIdFrom
    split
    · next hc =>
      have hmem : i ∈ t := by simpa using hc
      constructor
      · intro h; omega
      · intro h; exact absurd hmem (h t (List.mem_cons_self _ _))
    · next hc =>
      have hmem : i ∉ t := by simpa using hc
      rw [ih (next + 1) (by omega)]
      constructor
      · intro h u hu
        rcases List.mem_cons.mp hu with hu | hu
        · rw [hu]; exact hmem
        · exact h u hu
      · intro h u hu
        exact h u (List.mem_cons_of_mem _ hu)

theorem treeIdFrom_eq_iff (trees : List (List Nat)) (i : Nat)
    (hdis : trees.Pairwise List.Disjoint) :
    ∀ (next k : Nat) (t : List Nat), 1 ≤ next → trees[k]? = some t →
      (treeIdFrom next trees i = next + k ↔ i ∈ t) := by
  induction trees with
  | nil => intro next k t _ h; simp at h
  | cons u us ih =>
    intro next k t hn hk
    rw [List.pairwise_cons] at hdis
    unfold treeIdFrom
    split
    · next hc =>
      have hmem : i ∈ u := by simpa using hc
      cases k with
      | zero =>
        simp only [List.getElem?_cons_zero, Option.some.injEq] at hk
        subst hk
        simp [hmem]
      | succ k =>
        simp only [List.getElem?_cons_succ] at hk
        have htu : t ∈ us := List.getElem?_mem hk
        have hd := hdis.1 t htu
        constructor
        · intro h; omega
        · intro h; exact absurd h (fun h' => hd hmem h')
    · next hc =>
      have hmem : i ∉ u := by simpa using hc
      cases k with
      | zero =>
        simp only [List.getElem?_cons_zero, Option.some.injEq] at hk
        subst hk
        constructor
        · intro h
          rcases treeIdFrom_range us i (next + 1) with h0 | h1
          · omega
          · omega
        · intro h; exact absurd h hmem
      | succ k =>
        simp only [List.getElem?_cons_succ] at hk
        have := ih hdis.2 (next + 1) k t (by omega) hk
        rw [← this]
        constructor <;> intro h <;> omega


theorem surviving_trees_nodup (M : Int) (finished : List TreeStack)
    (hnd : (finished.flatMap TreeStack.members).Nodup) :
    ((surviving M finished).map TreeStack.members).flatten.Nodup := by
  rw [List.flatMap_def, List.nodup_flatten] at hnd
  rw [List.nodup_flatten]
  have hsub : ((surviving M finished).map TreeStack.members).Sublist
      (finished.map TreeStack.members) := (List.filter_sublist _).map _
  exact ⟨fun l hl => hnd.1 l (hsub.subset hl), hnd.2.sublist hsub⟩

theorem surviving_trees_lt (n : Nat) (M : Int) (finished : List TreeStack)
    (hlt : ∀ i ∈ finished.flatMap TreeStack.members, i < n) :
    ∀ t ∈ (surviving M finished).map TreeStack.members, ∀ i ∈ t, i < n := by
  intro t ht i hi
  rw [List.mem_map] at ht
  obtain ⟨s, hs, hst⟩ := ht
  subst hst
  apply hlt
  rw [List.mem_flatMap]
  exact ⟨s, (List.mem_filter.mp hs).1, hi⟩

theorem assemble_partition (n : Nat) (M : Int) (finished : List TreeStack)
    (hnd : (finished.flatMap TreeStack.members).Nodup)
    (hlt : ∀ i ∈ finished.flatMap TreeStack.members, i < n) :
    ((assemble n M finished).noise ++ (assemble n M finished).trees.flatten).Perm
      (List.range n) := by
  have htn := surviving_trees_nodup M finished hnd
  have htl := surviving_trees_lt n M finished hlt
  simp only [assemble]
  rw [List.perm_ext_iff_of_nodup _ (List.nodup_range n)]
  · intro a
    simp only [List.mem_append, List.mem_filter, List.mem_range, beq_iff_eq, List.mem_flatten]
    constructor
    · rintro (h | ⟨t, ht, hat⟩)
      · exact h.1
      · exact htl t ht a hat
    · intro ha
      by_cases h0 : treeIdFrom 1 ((surviving M finished).map TreeStack.members) a = 0
      · exact Or.inl ⟨ha, h0⟩
      · right
        rw [treeIdFrom_zero_iff _ _ 1 (le_refl 1)] at h0
        push_neg at h0
        exact h0
  · rw [List.nodup_append]
    refine ⟨List.Nodup.filter _ (List.nodup_range n), htn, ?_⟩
    intro a ha hb
    simp only [List.mem_filter, beq_iff_eq] at ha
    rw [List.mem_flatten] at hb
    obtain ⟨t, ht, hat⟩ := hb
    exact (treeIdFrom_zero_iff _ _ 1 (le_refl 1)).mp ha.2 t ht hat

theorem assemble_labels (n : Nat) (M : Int) (finished : List TreeStack)
    (hnd : (finished.flatMap TreeStack.members).Nodup) (i : Nat) (hi : i < n) :
    ∃ id, (assemble n M finished).labels[i]? = some id ∧
      id ≤ (assemble n M finished).m_nTrees ∧
      (id = 0 ↔ i ∈ (assemble n M finished).noise) ∧
      ∀ k t, (assemble n M finished).trees[k]? = some t → (id = k + 1 ↔ i ∈ t) := by
  have htn := surviving_trees_nodup M finished hnd
  rw [List.nodup_flatten] at htn
  refine ⟨treeIdFrom 1 ((surviving M finished).map TreeStack.members) i, ?_, ?_, ?_, ?_⟩
  · simp only [assemble, List.getElem?_map, List.getElem?_range hi, Option.map_some']
  · simp only [assemble]
    rcases treeIdFrom_range ((surviving M finished).map TreeStack.members) i 1 with h | h
    · omega
    · omega
  · simp only [assemble, List.mem_filter, List.mem_range, beq_iff_eq]
    exact ⟨fun h => ⟨hi, h⟩, fun h => h.2⟩
  · intro k t hk
    simp only [assemble] at hk
    have := treeIdFrom_eq_iff _ i htn.2 1 k t (le_refl 1) hk
    rw [← this]
    constructor <;> intro h <;> omega

theorem separateTrees_valid (ft : FoxTree) (direction mode : Int) (hpts : ft.points ≠ [])
    (hr : 0 < ft.radius) (hv : 0 < ft.verticalResolution) (hm : 0 < ft.minPointsPerCluster) :
    separateTrees ft direction mode
      = Except.ok (assemble ft.points.length ft.minPointsPerCluster
          (finalStacks ft (directionOf direction))) := by
  unfold separateTrees
  have h1 : ft.points.isEmpty = false := by
    cases h : ft.points with
    | nil => exact absurd h hpts
    | cons p ps => rfl
  have h2 : ¬ (ft.radius ≤ 0 ∨ ft.verticalResolution ≤ 0 ∨ ft.minPointsPerCluster ≤ 0) := by
    push_neg
    exact ⟨hr, hv, hm⟩
  simp only [h1, Bool.false_eq_true, if_false, h2]


theorem count_treeId (n : Nat) (trees : List (List Nat)) (hnd : trees.flatten.Nodup)
    (hlt : ∀ t ∈ trees, ∀ i ∈ t, i < n) (k : Nat) (t : List Nat) (hk : trees[k]? = some t) :
    ((List.range n).map (treeIdFrom 1 trees)).count (k + 1) = t.length := by
  rw [List.nodup_flatten] at hnd
  have htmem : t ∈ trees := List.getElem?_mem hk
  have hperm : ((List.range n).filter fun i => treeIdFrom 1 trees i == k + 1).Perm t := by
    rw [List.perm_ext_iff_of_nodup (List.Nodup.filter _ (List.nodup_range n)) (hnd.1 t htmem)]
    intro i
    have hiff := treeIdFrom_eq_iff trees i hnd.2 1 k t (le_refl 1) hk
    simp only [List.mem_filter, List.mem_range, beq_iff_eq]
    constructor
    · rintro ⟨_, h⟩
      exact hiff.mp (by omega)
    · intro h
      exact ⟨hlt t htmem i h, by have := hiff.mpr h; omega⟩
  rw [List.count_eq_countP, List.countP_map, List.countP_eq_length_filter]
  exact hperm.length_eq

theorem stacks_disjoint (finished : List TreeStack)
    (hnd : (finished.flatMap TreeStack.members).Nodup) (s s' : TreeStack)
    (hs : s ∈ finished) (hs' : s' ∈ finished) (hne : s ≠ s') :
    List.Disjoint s.members s'.members := by
  rw [List.nodup_flatMap] at hnd
  have hsym : Symmetric (Function.onFun List.Disjoint TreeStack.members) := by
    intro a b h
    exact List.Disjoint.symm h
  exact hnd.2.forall hsym hs hs' hne

theorem rejected_is_noise (M : Int) (finished : List TreeStack)
    (hnd : (finished.flatMap TreeStack.members).Nodup) (s : TreeStack) (hs : s ∈ finished)
    (hsmall : (s.pointCount : Int) < M) (i : Nat) (hi : i ∈ s.members) :
    treeIdFrom 1 ((surviving M finished).map TreeStack.members) i = 0 := by
  rw [treeIdFrom_zero_iff _ _ 1 (le_refl 1)]
  intro t ht hit
  rw [List.mem_map] at ht
  obtain ⟨s', hs', hst⟩ := ht
  subst hst
  simp only [surviving, List.mem_filter, decide_eq_true_eq] at hs'
  have hne : s ≠ s' := by
    intro h; subst h; omega
  exact stacks_disjoint finished hnd s s' hs hs'.1 hne hi hit


/-! ## C1: partition completeness -/

/-- C1: for every non-empty point list and every valid (positive) radius, vertical
resolution and minimum count, `separateTrees` returns a result in which every input
point index occurs exactly once among the noise set and the trees (no index is
missing, none is assigned twice), and the tree ID recorded for the index is 0
exactly when the index is noise, `k + 1` exactly when it is in tree `k + 1`, and
never exceeds `m_nTrees`. -/
theorem partition_completeness (ft : FoxTree) (direction mode : Int)
    (hpts : ft.points ≠ []) (hr : 0 < ft.radius) (hv : 0 < ft.verticalResolution)
    (hm : 0 < ft.minPointsPerCluster) :
    ∃ res, separateTrees ft direction mode = Except.ok res ∧
      res.m_nTrees = res.trees.length ∧
      res.labels.length = ft.points.length ∧
      (res.noise ++ res.trees.flatten).Perm (List.range ft.points.length) ∧
      ∀ i, i < ft.points.length →
        ∃ id, res.labels[i]? = some id ∧ id ≤ res.m_nTrees ∧
          (id = 0 ↔ i ∈ res.noise) ∧
          ∀ k t, res.trees[k]? = some t → (id = k + 1 ↔ i ∈ t) := by
  have hnd := finalStacks_members_nodup ft (directionOf direction)
  have hlt := finalStacks_members_lt ft (directionOf direction)
  refine ⟨_, separateTrees_valid ft direction mode hpts hr hv hm, ?_, ?_, ?_, ?_⟩
  · simp [assemble]
  · simp [assemble]
  · exact assemble_partition _ _ _ hnd hlt
  · intro i hi
    exact assemble_labels _ _ _ hnd i hi

/-- Witness of C1: two points one above the other, unit parameters. -/
theorem partition_completeness_witness :
    (sampleColumn.points ≠ [] ∧ 0 < sampleColumn.radius ∧
      0 < sampleColumn.verticalResolution ∧ 0 < sampleColumn.minPointsPerCluster) ∧
    ∃ res, separateTrees sampleColumn 1 1 = Except.ok res ∧
      res.m_nTrees = res.trees.length ∧
      res.labels.length = sampleColumn.points.length ∧
      (res.noise ++ res.trees.flatten).Perm (List.range sampleColumn.points.length) ∧
      ∀ i, i < sampleColumn.points.length →
        ∃ id, res.labels[i]? = some id ∧ id ≤ res.m_nTrees ∧
          (id = 0 ↔ i ∈ res.noise) ∧
          ∀ k t, res.trees[k]? = some t → (id = k + 1 ↔ i ∈ t) :=
  ⟨⟨by simp [sampleColumn], by norm_num [sampleColumn], by norm_num [sampleColumn],
      by simp [sampleColumn]⟩,
    partition_completeness sampleColumn 1 1 (by simp [sampleColumn])
      (by norm_num [sampleColumn]) (by norm_num [sampleColumn]) (by simp [sampleColumn])⟩

/-! ## C2: minimum-size enforcement -/

/-- C2: for every run of `separateTrees` with minimum count `M`, every tree ID from 1
to `m_nTrees` labels at least `M` points, and every point of a finalized stack whose
total point count is below `M` is in the noise set and labelled 0. -/
theorem minimum_size_enforcement (ft : FoxTree) (direction mode : Int)
    (hpts : ft.points ≠ []) (hr : 0 < ft.radius) (hv : 0 < ft.verticalResolution)
    (hm : 0 < ft.minPointsPerCluster) :
    ∃ res, separateTrees ft direction mode = Except.ok res ∧
      (∀ id, 1 ≤ id → id ≤ res.m_nTrees →
        ft.minPointsPerCluster ≤ (res.labels.count id : Int)) ∧
      (∀ t ∈ res.trees, ft.minPointsPerCluster ≤ (t.length : Int)) ∧
      ∀ s ∈ finalStacks ft (directionOf direction),
        (s.pointCount : Int) < ft.minPointsPerCluster →
        ∀ i ∈ s.members, i ∈ res.noise ∧ res.labels[i]? = some 0 := by
  have hnd := finalStacks_members_nodup ft (directionOf direction)
  have hlt := finalStacks_members_lt ft (directionOf direction)
  have hbig : ∀ t ∈ (surviving ft.minPointsPerCluster
      (finalStacks ft (directionOf direction))).map TreeStack.members,
      ft.minPointsPerCluster ≤ (t.length : Int) := by
    intro t ht
    rw [List.mem_map] at ht
    obtain ⟨s, hs, hst⟩ := ht
    subst hst
    simp only [surviving, List.mem_filter, decide_eq_true_eq] at hs
    rw [← pointCount_eq_length]
    exact hs.2
  refine ⟨_, separateTrees_valid ft direction mode hpts hr hv hm, ?_, ?_, ?_⟩
  · intro id h1 h2
    simp only [assemble] at h2 ⊢
    obtain ⟨k, hk⟩ : ∃ k, id = k + 1 := ⟨id - 1, by omega⟩
    subst hk
    have hklt : k < ((surviving ft.minPointsPerCluster
        (finalStacks ft (directionOf direction))).map TreeStack.members).length := by omega
    have hget := List.getElem?_eq_getElem hklt
    rw [count_treeId _ _ (surviving_trees_nodup _ _ hnd) (surviving_trees_lt _ _ _ hlt) k _ hget]
    exact hbig _ (List.getElem_mem hklt)
  · exact hbig
  · intro s hs hsmall i hi
    have hid := rejected_is_noise ft.minPointsPerCluster _ hnd s hs hsmall i hi
    have hilt : i < ft.points.length := hlt i (List.mem_flatMap.mpr ⟨s, hs, hi⟩)
    constructor
    · simp only [assemble, List.mem_filter, List.mem_range, beq_iff_eq]
      exact ⟨hilt, hid⟩
    · simp only [assemble, List.getElem?_map, List.getElem?_range hilt, Option.map_some', hid]

/-- Witness of C2: four points, minimum count 5. -/
theorem minimum_size_enforcement_witness :
    (sampleSparse.points ≠ [] ∧ 0 < sampleSparse.radius ∧
      0 < sampleSparse.verticalResolution ∧ 0 < sampleSparse.minPointsPerCluster) ∧
    ∃ res, separateTrees sampleSparse 1 1 = Except.ok res ∧
      (∀ id, 1 ≤ id → id ≤ res.m_nTrees →
        sampleSparse.minPointsPerCluster ≤ (res.labels.count id : Int)) ∧
      (∀ t ∈ res.trees, sampleSparse.minPointsPerCluster ≤ (t.length : Int)) ∧
      ∀ s ∈ finalStacks sampleSparse (directionOf 1),
        (s.pointCount : Int) < sampleSparse.minPointsPerCluster →
        ∀ i ∈ s.members, i ∈ res.noise ∧ res.labels[i]? = some 0 :=
  ⟨⟨by simp [sampleSparse], by norm_num [sampleSparse], by norm_num [sampleSparse],
      by simp [sampleSparse]⟩,
    minimum_size_enforcement sampleSparse 1 1 (by simp [sampleSparse])
      (by norm_num [sampleSparse]) (by norm_num [sampleSparse]) (by simp [sampleSparse])⟩


/-! ## C3: invalid configuration is rejected -/

theorem separateTrees_invalid (ft : FoxTree) (direction mode : Int)
    (hbad : ft.points = [] ∨ ft.radius ≤ 0 ∨ ft.verticalResolution ≤ 0 ∨
      ft.minPointsPerCluster ≤ 0) :
    separateTrees ft direction mode
      = Except.error (if ft.points.isEmpty then EngineError.EmptyInputError
          else EngineError.InvalidParameterError) := by
  unfold separateTrees
  cases hp : ft.points.isEmpty with
  | true => simp
  | false =>
    have hne : ft.points ≠ [] := by
      intro h; rw [h] at hp; simp at hp
    have hinv : ft.radius ≤ 0 ∨ ft.verticalResolution ≤ 0 ∨ ft.minPointsPerCluster ≤ 0 := by
      rcases hbad with h | h
      · exact absurd h hne
      · exact h
    simp [hinv]

/-- C3: whenever the radius, the vertical resolution or the minimum count of a run is
non-positive, or the point list is empty, `separateTrees` reports an error
(`EmptyInputError` for the empty list, `InvalidParameterError` otherwise) instead of
a separation; and a driver started with such values of `argv[3]`, `argv[4]`,
`argv[5]` never calls the output routine and never returns 0. -/
theorem invalid_configuration_rejected (ft : FoxTree) (direction mode : Int) (debug : Bool)
    (env : Env) (argv : List (List Char)) (fuel : Nat)
    (hbad : ft.points = [] ∨ ft.radius ≤ 0 ∨ ft.verticalResolution ≤ 0 ∨
      ft.minPointsPerCluster ≤ 0) :
    separateTrees ft direction mode
        = Except.error (if ft.points.isEmpty then EngineError.EmptyInputError
            else EngineError.InvalidParameterError) ∧
      (6 ≤ argv.length →
        (to_double env.extractDouble env.uninitDouble (argv.getD 3 []) ≤ 0 ∨
          to_double env.extractDouble env.uninitDouble (argv.getD 4 []) ≤ 0 ∨
          to_int env.uninitInt (argv.getD 5 []) ≤ 0) →
        ∀ r, segmentationMain debug env argv fuel = some r →
          r.exit ≠ some 0 ∧ ∀ ev ∈ r.events, ev.isOutput = false) := by
  refine ⟨separateTrees_invalid ft direction mode hbad, ?_⟩
  intro hargc hinv r hrun
  unfold segmentationMain at hrun
  rw [if_neg (by omega)] at hrun
  simp only at hrun
  split at hrun
  · simp only [Option.some.injEq] at hrun
    subst hrun
    exact ⟨by decide, by simp⟩
  · next content _ =>
    split at hrun
    · exact absurd hrun (by simp)
    · next points _ =>
      rw [separateTrees_invalid _ 1 1 (Or.inr hinv)] at hrun
      simp only [Option.some.injEq] at hrun
      subst hrun
      exact ⟨by simp, by simp [Event.isOutput]⟩

/-- Witness of C3: minimum count 0, on the engine and on the command line
`seg in out 1 1 0`. -/
theorem invalid_configuration_rejected_witness :
    (sampleInvalid.points = [] ∨ sampleInvalid.radius ≤ 0 ∨
        sampleInvalid.verticalResolution ≤ 0 ∨ sampleInvalid.minPointsPerCluster ≤ 0) ∧
      separateTrees sampleInvalid 1 1
        = Except.error (if sampleInvalid.points.isEmpty then EngineError.EmptyInputError
            else EngineError.InvalidParameterError) ∧
      (6 ≤ sampleArgv.length →
        (to_double sampleEnv.extractDouble sampleEnv.uninitDouble (sampleArgv.getD 3 []) ≤ 0 ∨
          to_double sampleEnv.extractDouble sampleEnv.uninitDouble (sampleArgv.getD 4 []) ≤ 0 ∨
          to_int sampleEnv.uninitInt (sampleArgv.getD 5 []) ≤ 0) →
        ∀ r, segmentationMain false sampleEnv sampleArgv 5 = some r →
          r.exit ≠ some 0 ∧ ∀ ev ∈ r.events, ev.isOutput = false) :=
  ⟨Or.inr (Or.inr (Or.inr (by decide))),
    invalid_configuration_rejected sampleInvalid 1 1 false sampleEnv sampleArgv 5
      (Or.inr (Or.inr (Or.inr (by decide))))⟩

/-! ## C4: control flow of the segmentation driver -/

/-- C4, counterexample: with five arguments and an input file that opens, the driver
need not return 0.  On `seg in out 1 1 0` the engine is constructed and
`separateTrees(1, 1)` is called, the call reports the invalid minimum count and the
run ends there; and on a file holding `x` the loading loop never ends, so the engine
is never constructed and `main` never returns. -/
theorem driver_returns_zero_counterexample :
    (6 ≤ sampleArgv.length ∧ (sampleEnv.files (sampleArgv.getD 1 [])).isSome = true ∧
      segmentationMain false sampleEnv sampleArgv 5
        = some { events := [Event.construct sampleInvalid, Event.separateTrees 1 1],
                 exit := none }) ∧
    (6 ≤ sampleArgv.length ∧ (stuckEnv.files (sampleArgv.getD 1 [])).isSome = true ∧
      ¬ ∃ fuel r, segmentationMain false stuckEnv sampleArgv fuel = some r) := by
  refine ⟨⟨by decide, by decide, by decide⟩, by decide, by decide, ?_⟩
  rintro ⟨fuel, r, h⟩
  have hstuck : loadPoints stuckEnv.strtod stuckEnv.uninitPt ['x'] fuel = none :=
    loadLoop_stuck _ fuel _ _
  have hfile : stuckEnv.files (sampleArgv.getD 1 []) = some ['x'] := by decide
  have hlen : ¬ sampleArgv.length < 6 := by decide
  unfold segmentationMain at h
  rw [if_neg hlen] at h
  simp only [hfile, hstuck] at h
  exact absurd h (by simp)

/-- C4, amended: with fewer than five arguments, or with an input file that cannot be
opened, the driver returns 1 without any engine call.  With five arguments, a file
that opens and a loading loop that ends with the list `points`, the engine is
constructed with `points`, `to_double(argv[3])`, `to_double(argv[4])`,
`to_int(argv[5])` in that order and `separateTrees(1, 1)` is called exactly once;
the driver then calls the output routine and returns 0 if the call succeeded, and the
run ends at the call, with nothing written, if the call reported an error. -/
theorem driver_control_flow (debug : Bool) (env : Env) (argv : List (List Char))
    (fuel : Nat) :
    ((argv.length < 6 ∨ env.files (argv.getD 1 []) = none) →
        segmentationMain debug env argv fuel = some (Run.mk [] (some 1))) ∧
      (6 ≤ argv.length → ∀ content points, env.files (argv.getD 1 []) = some content →
        loadPoints env.strtod env.uninitPt content fuel = some points →
          (engineOf env argv points).points = points ∧
          (engineOf env argv points).radius
            = to_double env.extractDouble env.uninitDouble (argv.getD 3 []) ∧
          (engineOf env argv points).verticalResolution
            = to_double env.extractDouble env.uninitDouble (argv.getD 4 []) ∧
          (engineOf env argv points).minPointsPerCluster
            = to_int env.uninitInt (argv.getD 5 []) ∧
          (∀ res, separateTrees (engineOf env argv points) 1 1 = Except.ok res →
              segmentationMain debug env argv fuel
                = some (Run.mk
                    [Event.construct (engineOf env argv points), Event.separateTrees 1 1,
                      Event.outputTrees debug (argv.getD 2 []) res.m_nTrees]
                    (some 0))) ∧
          (∀ e, separateTrees (engineOf env argv points) 1 1 = Except.error e →
              segmentationMain debug env argv fuel
                = some (Run.mk
                    [Event.construct (engineOf env argv points), Event.separateTrees 1 1]
                    none))) := by
  constructor
  · rintro (hlt | hfile)
    · unfold segmentationMain
      rw [if_pos hlt]
    · unfold segmentationMain
      by_cases hlt : argv.length < 6
      · rw [if_pos hlt]
      · rw [if_neg hlt]
        simp only [hfile]
  · intro hargc content points hfile hload
    refine ⟨rfl, rfl, rfl, rfl, ?_, ?_⟩
    · intro res hres
      unfold engineOf at hres
      unfold segmentationMain engineOf
      rw [if_neg (by omega)]
      simp only [hfile, hload, hres]
    · intro e he
      unfold engineOf at he
      unfold segmentationMain engineOf
      rw [if_neg (by omega)]
      simp only [hfile, hload, he]

/-- Witness of C4 (amended): the run of `seg in out 1 1 0` on the file `1 2 3` ends at
the call of `separateTrees`, which reports the invalid minimum count. -/
theorem driver_control_flow_witness :
    (6 ≤ sampleArgv.length ∧
      sampleEnv.files (sampleArgv.getD 1 []) = some ['1', ' ', '2', ' ', '3'] ∧
      loadPoints sampleEnv.strtod sampleEnv.uninitPt ['1', ' ', '2', ' ', '3'] 5
        = some [⟨0, 0, 0⟩] ∧
      separateTrees (engineOf sampleEnv sampleArgv [⟨0, 0, 0⟩]) 1 1
        = Except.error EngineError.InvalidParameterError) ∧
    segmentationMain false sampleEnv sampleArgv 5
      = some (Run.mk
          [Event.construct (engineOf sampleEnv sampleArgv [⟨0, 0, 0⟩]),
            Event.separateTrees 1 1]
          none) :=
  ⟨⟨by decide, by decide, by decide, by rfl⟩,
    ((driver_control_flow false sampleEnv sampleArgv 5).2 (by decide)
        ['1', ' ', '2', ' ', '3'] [⟨0, 0, 0⟩] (by decide) (by decide)).2.2.2.2.2
      EngineError.InvalidParameterError (by rfl)⟩

/-! ## C5: point ingestion -/

/-- C5: for every file made of `n >= 1` well-formed coordinate triples separated by
white space (with or without leading white space, with or without a trailing
newline), the loading loop ends and the point list it produces has exactly one point
per triple, in file order, the coordinates of the i-th point being the conversions of
the three numbers of the i-th triple. -/
theorem point_ingestion {D : Type} (strtod : List Char → D) (uninit : Point3D D)
    (lead : List Char) (ts : List Triple) (fuel : Nat)
    (hn : ts ≠ []) (hlead : lead.all isSpace = true)
    (hwf : ts.all Triple.wellFormed = true) (hsep : separated ts = true)
    (hfuel : ts.length < fuel) :
    loadPoints strtod uninit (fileText lead ts) fuel = some (ts.map (Triple.point strtod)) ∧
      (ts.map (Triple.point strtod)).length = ts.length := by
  have hwf' : ∀ t ∈ ts, t.wellFormed = true := by
    simpa [List.all_eq_true] using hwf
  have h := loadLoop_triples strtod ts lead uninit [] fuel hn (all_space_mem hlead) hwf' hsep
    hfuel
  rw [List.nil_append] at h
  exact ⟨h, List.length_map _ _⟩

/-- Witness of C5: the two lines `1 -2.5 3e2` and `.5 +7 8.`, no final newline. -/
theorem point_ingestion_witness :
    (sampleTriples ≠ [] ∧ ([] : List Char).all isSpace = true ∧
      sampleTriples.all Triple.wellFormed = true ∧ separated sampleTriples = true ∧
      sampleTriples.length < 3) ∧
    loadPoints id ⟨[], [], []⟩ (fileText [] sampleTriples) 3
        = some (sampleTriples.map (Triple.point id)) ∧
      (sampleTriples.map (Triple.point id)).length = sampleTriples.length :=
  ⟨⟨by decide, by decide, by decide, by decide, by decide⟩,
    point_ingestion id ⟨[], [], []⟩ [] sampleTriples 3 (by decide) (by decide) (by decide)
      (by decide) (by decide)⟩

/-! ## C9: the loading loop need not terminate -/

/-- C9, evaluated at the failing input: on a file holding the single character `x`
the loading loop is still running after any number of iterations, whatever the
conversion and the initial content of `tempPt`. -/
theorem loading_loop_diverges {D : Type} (strtod : List Char → D) (uninit : Point3D D)
    (fuel : Nat) : loadPoints strtod uninit ['x'] fuel = none :=
  loadLoop_stuck strtod fuel uninit []

/-! ## C8: cluster selection of the alpha-wrap example -/

end TreeSeparation
